import Mathlib

/-!
Verification of the PlanetaFiscal text-to-structured-data processor
(`src/procesador.py`) against its natural-language specification.

Embedding conventions:
* Python strings are embedded as `List Char` (sequences of Unicode code points).
* Python exceptions become `Except` values; the carried message is the
  exception's text.
* JSON values produced by `json.loads` are the inductive type `JVal`; Python
  `float` payloads are abstracted (only the type tag matters to the validator),
  and Python `bool` is a distinct constructor, with the subclass relation
  `bool <: int` reflected where the code uses `isinstance(..., (int, float))`.
* `datetime.now()` timestamps are effects and are omitted from record models;
  no claim concerns them.
-/

namespace Procesador

/-- Backtick character, used by the markdown-fence stripping in `validar_json`. -/
def bq : Char := Char.ofNat 96

/-- A triple-backtick fence delimiter. -/
def valla : List Char := [bq, bq, bq]

/-- Apostrophe (single quote), used in Python error-message rendering. -/
def comilla : Char := Char.ofNat 39

/-- Opening curly brace, used in Python set `repr`. -/
def llaveAbre : Char := Char.ofNat 123

/-- Closing curly brace, used in Python set `repr`. -/
def llaveCierra : Char := Char.ofNat 125

/-- Newline character. -/
def nl : Char := Char.ofNat 10

/-- Hyphen character (the date separator). -/
def guion : Char := Char.ofNat 45

/-- Python `str.strip()` whitespace, restricted to the ASCII range
(space, tab, newline, carriage return, vertical tab, form feed).
Python also strips some non-ASCII Unicode whitespace; none of the texts
involved in the claims contain any. -/
def esEspacioPy (c : Char) : Bool :=
  c == ' ' || c == '\t' || c == nl || c == '\r' ||
    c == Char.ofNat 11 || c == Char.ofNat 12

/-- Python `str.strip()`: drop leading and trailing whitespace. -/
def pstrip (s : List Char) : List Char :=
  ((s.dropWhile esEspacioPy).reverse.dropWhile esEspacioPy).reverse

/-- Python `str.split(sep)` for a one-character separator. -/
def partir (sep : Char) : List Char → List (List Char)
  | [] => [[]]
  | c :: cs =>
    if c = sep then [] :: partir sep cs
    else (c :: (partir sep cs).headD []) :: (partir sep cs).tail

/-- Python `texto.split("\n")`. -/
def lineas (s : List Char) : List (List Char) := partir nl s

/-- Python `sep.join(ls)`. -/
def intercalar (sep : List Char) : List (List Char) → List Char
  | [] => []
  | [x] => x
  | x :: y :: resto => x ++ sep ++ intercalar sep (y :: resto)

/-- Python `"\n".join(ls)`. -/
def unLineas (ls : List (List Char)) : List Char := intercalar [nl] ls

/-- Python `s.startswith(p)` as a Boolean on character lists. -/
def empiezaCon : List Char → List Char → Bool
  | [], _ => true
  | _ :: _, [] => false
  | p :: ps, c :: cs => p == c && empiezaCon ps cs

/-- Substring containment (`p in s` for Python strings). -/
def esInfijo (p : List Char) : List Char → Bool
  | [] => empiezaCon p []
  | c :: cs => empiezaCon p (c :: cs) || esInfijo p cs

/-- The markdown-fence cleanup at the start of `validar_json`
(procesador.py lines 175-179): strip the reply, and if it starts with a
triple backtick, drop every line whose stripped form starts with a triple
backtick, rejoin the rest, and strip again. -/
def limpiar (respuesta_texto : List Char) : List Char :=
  let texto := pstrip respuesta_texto
  if empiezaCon valla texto then
    pstrip (unLineas ((lineas texto).filter (fun l => !(empiezaCon valla (pstrip l)))))
  else texto

/-- A Python value decoded from JSON by `json.loads`.  `flotante` abstracts
the numeric payload of a Python `float` (the validator only inspects its
type); `booleano` models Python `bool`, which in Python is a subclass of
`int`. Objects keep their member list; duplicate keys resolve to the last
binding, as in a Python dict built by the JSON decoder. -/
inductive JVal where
  | nulo
  | booleano (b : Bool)
  | entero (n : Int)
  | flotante
  | cadena (s : List Char)
  | lista (xs : List JVal)
  | objeto (campos : List (List Char × JVal))

/-- Dictionary lookup where the last binding of a key wins (Python dict
semantics under duplicate JSON keys).  Returns `nulo` when the key is
absent; the validator only calls it after the presence check, mirroring
that `datos["k"]` cannot raise `KeyError` there. -/
def jgetUltimo : List (List Char × JVal) → List Char → JVal
  | [], _ => .nulo
  | (k2, v) :: resto, k => if k2 == k then v else jgetUltimo resto k

/-- Python `datos[k]` on the decoded object. -/
def jget (campos : List (List Char × JVal)) (k : List Char) : JVal :=
  jgetUltimo campos.reverse k

/-- Python `k in datos.keys()`. -/
def tieneClave (campos : List (List Char × JVal)) (k : List Char) : Bool :=
  campos.any (fun kv => kv.1 == k)

def sNombre : List Char := ("nombre_cliente").data
def sMonto : List Char := ("monto").data
def sFecha : List Char := ("fecha").data
def sTipo : List Char := ("tipo_solicitud").data

/-- `CAMPOS_REQUERIDOS` (procesador.py line 33).  Embedded as a list in the
source's literal order; CPython's set iteration order is an implementation
detail, and only membership of names in the rendered message matters. -/
def CAMPOS_REQUERIDOS : List (List Char) := [sNombre, sMonto, sFecha, sTipo]

def sVenta : List Char := ("Venta").data
def sQueja : List Char := ("Queja").data
def sFactura : List Char := ("Factura").data

/-- `TIPOS_VALIDOS` (procesador.py line 34), in the source's literal order. -/
def TIPOS_VALIDOS : List (List Char) := [sVenta, sQueja, sFactura]

/-- `CAMPOS_REQUERIDOS - set(datos.keys())` (line 198), in the fixed order
of `CAMPOS_REQUERIDOS`. -/
def camposFaltantes (campos : List (List Char × JVal)) : List (List Char) :=
  CAMPOS_REQUERIDOS.filter (fun c => !(tieneClave campos c))

/-- Python `type(v).__name__` for decoded JSON values. -/
def nombreTipoPy : JVal → List Char
  | .nulo => ("NoneType").data
  | .booleano _ => ("bool").data
  | .entero _ => ("int").data
  | .flotante => ("float").data
  | .cadena _ => ("str").data
  | .lista _ => ("list").data
  | .objeto _ => ("dict").data

/-- Python `str(v)` as used inside f-strings, exact on the scalar values the
messages under verification interpolate (strings render as their own text);
container and float renderings are abstracted, as no claim inspects them. -/
def pyStr : JVal → List Char
  | .nulo => ("None").data
  | .booleano true => ("True").data
  | .booleano false => ("False").data
  | .entero n => (toString n).data
  | .flotante => ("float").data
  | .cadena s => s
  | .lista _ => ("list").data
  | .objeto _ => ("dict").data

/-- Python `repr` of a set of strings, with the iteration order fixed to the
given list order (CPython's hash order is an implementation detail; the
claims only need which names appear in the message). -/
def reprConjunto (xs : List (List Char)) : List Char :=
  llaveAbre ::
    (intercalar ((", ").data) (xs.map (fun s => comilla :: (s ++ [comilla])))) ++
    [llaveCierra]

/-- ASCII digit test.  Python's `\d` (and `int()`) also accept non-ASCII
decimal digits; the embedding restricts to ASCII, which covers every string
the spec and claims mention. -/
def esDigito (c : Char) : Bool := c.isDigit

/-- Numeric value of a digit string (`int(ds)`). -/
def valorDigitos (ds : List Char) : Nat :=
  ds.foldl (fun acc c => acc * 10 + (c.toNat - ('0').toNat)) 0

/-- Gregorian leap-year rule, as in `datetime.date`. -/
def esBisiesto (y : Nat) : Bool :=
  (y % 4 == 0) && ((y % 100 != 0) || (y % 400 == 0))

/-- Days in a month, as validated by the `datetime.date` constructor. -/
def diasDelMes (y m : Nat) : Nat :=
  if m == 2 then (if esBisiesto y then 29 else 28)
  else if m == 4 || m == 6 || m == 9 || m == 11 then 30
  else 31

/-- The month part accepted by CPython `_strptime`'s `%m` regex
`1[0-2]|0[1-9]|[1-9]` when it must consume the whole hyphen-delimited
part: one or two digits with value 1..12 (so `"1"` and `"01"` both pass,
`"0"`, `"00"` and three-digit parts do not). -/
def parteMes (m : List Char) : Bool :=
  (m.length == 1 || m.length == 2) && m.all esDigito &&
    decide (1 ≤ valorDigitos m) && decide (valorDigitos m ≤ 12)

/-- The day part accepted by `%d`'s regex `3[01]|[12]\d|0[1-9]|[1-9]` on a
whole part: one or two digits with value 1..31. -/
def parteDia (d : List Char) : Bool :=
  (d.length == 1 || d.length == 2) && d.all esDigito &&
    decide (1 ≤ valorDigitos d) && decide (valorDigitos d ≤ 31)

/-- `datetime.strptime(s, "%Y-%m-%d")` succeeding (line 213).  CPython
compiles the format to the regex `(\d\d\d\d)\-(1[0-2]|0[1-9]|[1-9])\-`
`(3[01]|[12]\d|0[1-9]|[1-9])`, requires the match to consume the whole
string, and then builds a `datetime.date`, which demands `1 <= year` and a
day that exists in the month.  Because the two separators are literal
hyphens and all three parts are digit-only, the regex accepts exactly the
strings with two hyphens whose three parts pass the per-part tests, which
is what this function checks. -/
def fechaValida (s : List Char) : Bool :=
  match partir guion s with
  | [y, m, d] =>
    (y.length == 4) && y.all esDigito && parteMes m && parteDia d &&
      decide (1 ≤ valorDigitos y) &&
      decide (valorDigitos d ≤ diasDelMes (valorDigitos y) (valorDigitos m))
  | _ => false

/-- Message of line 204. -/
def msgNombre : List Char :=
  comilla :: (("nombre_cliente").data ++ [comilla] ++ (" debe ser un string no vacío.").data)

/-- The `nombre_cliente` check (line 203): must be a string that is
non-empty after stripping. -/
def revisarNombre (campos : List (List Char × JVal)) : Except (List Char) Unit :=
  match jget campos sNombre with
  | .cadena s => if pstrip s == [] then .error msgNombre else .ok ()
  | _ => .error msgNombre

/-- `isinstance(v, (int, float))` in Python.  `bool` is a subclass of
`int`, so Python booleans pass this test. -/
def esNumericoPy : JVal → Bool
  | .entero _ => true
  | .flotante => true
  | .booleano _ => true
  | _ => false

/-- Message of line 208, interpolating `type(monto).__name__`. -/
def msgMonto (v : JVal) : List Char :=
  comilla :: (("monto").data ++ [comilla] ++
    (" debe ser numérico o null, se recibió: ").data ++ nombreTipoPy v)

/-- The `monto` check (lines 206-208): `None` passes; otherwise
`isinstance(monto, (int, float))` must hold. -/
def revisarMonto (campos : List (List Char × JVal)) : Except (List Char) Unit :=
  match jget campos sMonto with
  | .nulo => .ok ()
  | v => if esNumericoPy v then .ok () else .error (msgMonto v)

/-- Message of line 211 (does not mention the offending value). -/
def msgFechaNoCadena : List Char :=
  comilla :: (("fecha").data ++ [comilla] ++
    (" debe ser un string en formato YYYY-MM-DD.").data)

/-- Message of line 215, interpolating the offending date string. -/
def msgFechaFormato (s : List Char) : List Char :=
  comilla :: (("fecha").data ++ [comilla] ++
    (" no tiene formato YYYY-MM-DD válido: ").data ++ s)

/-- The `fecha` checks (lines 210-215): string test, then `strptime`. -/
def revisarFecha (campos : List (List Char × JVal)) : Except (List Char) Unit :=
  match jget campos sFecha with
  | .cadena s => if fechaValida s then .ok () else .error (msgFechaFormato s)
  | _ => .error msgFechaNoCadena

/-- Message of lines 218-221. -/
def msgTipo (v : JVal) : List Char :=
  comilla :: (("tipo_solicitud").data ++ [comilla] ++ (" inválido: ").data ++
    comilla :: (pyStr v ++ [comilla]) ++ (". Valores permitidos: ").data ++
    reprConjunto TIPOS_VALIDOS)

/-- The `tipo_solicitud` check (line 217): membership in `TIPOS_VALIDOS`;
a non-string value is simply not a member. -/
def revisarTipo (campos : List (List Char × JVal)) : Except (List Char) Unit :=
  let v := jget campos sTipo
  match v with
  | .cadena t => if TIPOS_VALIDOS.any (fun t2 => t2 == t) then .ok () else .error (msgTipo v)
  | _ => .error (msgTipo v)

/-- The field-level checks of `validar_json` (lines 203-223), run in source
order with the first failure raised, returning the whole decoded object on
success. -/
def revisarCampos (campos : List (List Char × JVal)) : Except (List Char) JVal := do
  revisarNombre campos
  revisarMonto campos
  revisarFecha campos
  revisarTipo campos
  return JVal.objeto campos

def msgListaVacia : List Char := ("La IA devolvió una lista vacía.").data

def msgEsperabaObjeto (v : JVal) : List Char :=
  ("Se esperaba un objeto JSON, se recibió: ").data ++ nombreTipoPy v

def msgFaltantes (falt : List (List Char)) : List Char :=
  ("Campos faltantes en el JSON: ").data ++ reprConjunto falt

/-- Lines 194-223 of `validar_json`: require a dict, require the field set,
then run the field checks. -/
def validarDict (datos : JVal) : Except (List Char) JVal :=
  match datos with
  | .objeto campos =>
    let falt := camposFaltantes campos
    if falt.isEmpty then revisarCampos campos else .error (msgFaltantes falt)
  | otro => .error (msgEsperabaObjeto otro)

/-- Lines 188-223 of `validar_json`: the post-parse validation applied to
the value `json.loads` produced.  A list is replaced by its first element
(empty lists fail), then the dict-shape and field checks run. -/
def validar_datos (datos : JVal) : Except (List Char) JVal :=
  match datos with
  | .lista [] => .error msgListaVacia
  | .lista (d :: _) => validarDict d
  | d => validarDict d

/-! ### The JSON decoder (`json.loads`, strict mode)

A recursive-descent parser over the code points, mirroring the behavior of
CPython's `json.loads` with default arguments on the inputs in scope:
JSON whitespace is space/tab/newline/carriage-return; strings reject raw
control characters below U+0020 and decode the standard escapes; numbers
follow `NUMBER_RE` (no leading zeros, optional fraction and exponent, the
fraction/exponent only consumed when complete); the extra constants `NaN`,
`Infinity` and `-Infinity` are accepted as floats.  Lone `\uXXXX`
surrogates, which CPython keeps in the `str`, are mapped to U+FFFD since
Lean's `Char` excludes surrogates; no claim involves them. -/

/-- JSON whitespace (`[ \t\n\r]`, as in `json.decoder.WHITESPACE`). -/
def esEspacioJson (c : Char) : Bool :=
  c == ' ' || c == '\t' || c == nl || c == '\r'

/-- Skip JSON whitespace. -/
def saltarEspacios : List Char → List Char
  | c :: cs => if esEspacioJson c then saltarEspacios cs else c :: cs
  | [] => []

/-- Value of a hexadecimal digit. -/
def valorHex (c : Char) : Option Nat :=
  if c.isDigit then some (c.toNat - ('0').toNat)
  else if ('a' ≤ c) ∧ (c ≤ 'f') then some (c.toNat - ('a').toNat + 10)
  else if ('A' ≤ c) ∧ (c ≤ 'F') then some (c.toNat - ('A').toNat + 10)
  else none

/-- The single-character string escapes (`json.decoder.BACKSLASH`). -/
def escapeSimple (c : Char) : Option Char :=
  match c with
  | '"' => some '"'
  | '\\' => some '\\'
  | '/' => some '/'
  | 'b' => some (Char.ofNat 8)
  | 'f' => some (Char.ofNat 12)
  | 'n' => some nl
  | 'r' => some '\r'
  | 't' => some '\t'
  | _ => none

/-- Decode the four hex digits of a `\uXXXX` escape. -/
def hex4 (a b c d : Char) : Option Nat :=
  match valorHex a, valorHex b, valorHex c, valorHex d with
  | some va, some vb, some vc, some vd => some (((va * 16 + vb) * 16 + vc) * 16 + vd)
  | _, _, _, _ => none

/-- A code point as a `Char`, with the surrogate range collapsed to U+FFFD
(see the section header). -/
def charDe (n : Nat) : Char :=
  if 0xD800 ≤ n ∧ n ≤ 0xDFFF then Char.ofNat 0xFFFD else Char.ofNat n

/-- One escape sequence after the backslash: the decoded character and the
rest of the input.  A `\uXXXX` high surrogate immediately followed by a
`\uXXXX` low surrogate combines into one code point, as in CPython's
`py_scanstring`; otherwise the lone surrogate stays (collapsed to U+FFFD
here, see the section header). -/
def pasoEscape : List Char → Option (Char × List Char)
  | [] => none
  | e :: cs2 =>
    if e == 'u' then
      match cs2 with
      | a :: b :: c :: d :: cs3 =>
        match hex4 a b c d with
        | none => none
        | some n =>
          if 0xD800 ≤ n ∧ n ≤ 0xDBFF then
            match cs3 with
            | s1 :: s2 :: a2 :: b2 :: c3 :: d2 :: cs4 =>
              if s1 == '\\' && s2 == 'u' then
                match hex4 a2 b2 c3 d2 with
                | some n2 =>
                  if 0xDC00 ≤ n2 ∧ n2 ≤ 0xDFFF then
                    some (Char.ofNat (0x10000 + (n - 0xD800) * 0x400 + (n2 - 0xDC00)), cs4)
                  else some (charDe n, s1 :: s2 :: a2 :: b2 :: c3 :: d2 :: cs4)
                | none => some (charDe n, s1 :: s2 :: a2 :: b2 :: c3 :: d2 :: cs4)
              else some (charDe n, s1 :: s2 :: a2 :: b2 :: c3 :: d2 :: cs4)
            | otros => some (charDe n, otros)
          else some (charDe n, cs3)
      | _ => none
    else
      match escapeSimple e with
      | some ch => some (ch, cs2)
      | none => none

/-- String body after the opening quote: returns the decoded content and
the rest of the input after the closing quote.  The fuel argument makes
the recursion structural (each step consumes at least one character, so
`length + 1` fuel always suffices, and the callers pass exactly that). -/
def cuerpoCadena : Nat → List Char → Option (List Char × List Char)
  | 0, _ => none
  | _ + 1, [] => none
  | fuel + 1, c :: cs =>
    if c == '"' then some ([], cs)
    else if c == '\\' then
      match pasoEscape cs with
      | none => none
      | some (ch, cs2) => (cuerpoCadena fuel cs2).map (fun p => (ch :: p.1, p.2))
    else if c.toNat < 0x20 then none
    else (cuerpoCadena fuel cs).map (fun p => (c :: p.1, p.2))

/-- Take a maximal run of ASCII digits. -/
def tomarDigitos : List Char → List Char × List Char
  | c :: cs =>
    if esDigito c then
      ((tomarDigitos cs).1.cons c, (tomarDigitos cs).2)
    else ([], c :: cs)
  | [] => ([], [])

/-- The optional fraction group `(\.\d+)?` of `NUMBER_RE`: consumed only
when complete (a `.` without following digits is left unconsumed, ending
the number before it). -/
def parteFraccion (rest : List Char) : Bool × List Char :=
  match rest with
  | p :: r =>
    if p == '.' then
      match tomarDigitos r with
      | ([], _) => (false, rest)
      | (_ :: _, r2) => (true, r2)
    else (false, rest)
  | [] => (false, rest)

/-- The optional exponent group `([eE][-+]?\d+)?` of `NUMBER_RE`: consumed
only when complete. -/
def parteExponente (rest : List Char) : Bool × List Char :=
  match rest with
  | e :: r =>
    if e == 'e' || e == 'E' then
      match r with
      | s :: r2 =>
        if s == '+' || s == guion then
          match tomarDigitos r2 with
          | ([], _) => (false, rest)
          | (_ :: _, r3) => (true, r3)
        else
          match tomarDigitos r with
          | ([], _) => (false, rest)
          | (_ :: _, r3) => (true, r3)
      | [] => (false, rest)
    else (false, rest)
  | [] => (false, rest)

/-- The fraction and exponent tail of `NUMBER_RE`; the value is a float
exactly when at least one optional group was consumed. -/
def despuesEntero (neg : Bool) (n : Nat) (rest : List Char) : Option (JVal × List Char) :=
  let paso1 := parteFraccion rest
  let paso2 := parteExponente paso1.2
  if paso1.1 || paso2.1 then some (JVal.flotante, paso2.2)
  else some (JVal.entero (if neg then -(n : Int) else (n : Int)), paso2.2)

/-- A JSON number per `NUMBER_RE`: optional minus, then `0` or a nonzero
digit followed by digits, then the optional fraction/exponent tail. -/
def numeroJson (cs : List Char) : Option (JVal × List Char) :=
  let signo : Bool × List Char :=
    match cs with
    | c :: r => if c == guion then (true, r) else (false, cs)
    | [] => (false, cs)
  match signo.2 with
  | [] => none
  | c :: r =>
    if c == '0' then despuesEntero signo.1 0 r
    else if esDigito c then
      despuesEntero signo.1 (valorDigitos (c :: (tomarDigitos r).1)) (tomarDigitos r).2
    else none

/-- Expect a literal continuation (the tail of `true`, `null`, ...). -/
def esperarLit (lit cs : List Char) : Option (List Char) :=
  if empiezaCon lit cs then some (cs.drop lit.length) else none

mutual

/-- One JSON value starting at the given position (whitespace already
skipped), returning it and the rest of the input. -/
def valorJson : Nat → List Char → Option (JVal × List Char)
  | 0, _ => none
  | fuel + 1, cs =>
    match cs with
    | [] => none
    | c :: cs2 =>
      if c == '"' then (cuerpoCadena (cs2.length + 1) cs2).map (fun p => (JVal.cadena p.1, p.2))
      else if c == llaveAbre then miembrosObjeto fuel (saltarEspacios cs2)
      else if c == '[' then elementosLista fuel (saltarEspacios cs2)
      else if c == 't' then (esperarLit (("rue").data) cs2).map (fun r => (JVal.booleano true, r))
      else if c == 'f' then (esperarLit (("alse").data) cs2).map (fun r => (JVal.booleano false, r))
      else if c == 'n' then (esperarLit (("ull").data) cs2).map (fun r => (JVal.nulo, r))
      else if c == 'N' then (esperarLit (("aN").data) cs2).map (fun r => (JVal.flotante, r))
      else if c == 'I' then (esperarLit (("nfinity").data) cs2).map (fun r => (JVal.flotante, r))
      else if c == guion && empiezaCon (("Infinity").data) cs2 then
        some (JVal.flotante, cs2.drop 8)
      else if c == guion || esDigito c then numeroJson cs
      else none

/-- After `{` and whitespace: an empty object or the member loop. -/
def miembrosObjeto : Nat → List Char → Option (JVal × List Char)
  | 0, _ => none
  | fuel + 1, cs =>
    match cs with
    | [] => none
    | c :: cs2 =>
      if c == llaveCierra then some (JVal.objeto [], cs2)
      else bucleObjeto fuel cs []

/-- The object-member loop, positioned at the opening quote of a key.
Duplicate keys accumulate; `jget` resolves to the last, as `dict` does. -/
def bucleObjeto : Nat → List Char → List (List Char × JVal) → Option (JVal × List Char)
  | 0, _, _ => none
  | fuel + 1, cs, acc =>
    match cs with
    | [] => none
    | c :: cs2 =>
      if c == '"' then
        match cuerpoCadena (cs2.length + 1) cs2 with
        | none => none
        | some (k, r1) =>
          match saltarEspacios r1 with
          | [] => none
          | c2 :: r2 =>
            if c2 == ':' then
              match valorJson fuel (saltarEspacios r2) with
              | none => none
              | some (v, r3) =>
                match saltarEspacios r3 with
                | [] => none
                | c3 :: r4 =>
                  if c3 == ',' then bucleObjeto fuel (saltarEspacios r4) (acc ++ [(k, v)])
                  else if c3 == llaveCierra then some (JVal.objeto (acc ++ [(k, v)]), r4)
                  else none
            else none
      else none

/-- After `[` and whitespace: an empty array or the element loop. -/
def elementosLista : Nat → List Char → Option (JVal × List Char)
  | 0, _ => none
  | fuel + 1, cs =>
    match cs with
    | [] => none
    | c :: cs2 =>
      if c == ']' then some (JVal.lista [], cs2)
      else bucleLista fuel cs []

/-- The array-element loop, positioned at the start of a value. -/
def bucleLista : Nat → List Char → List JVal → Option (JVal × List Char)
  | 0, _, _ => none
  | fuel + 1, cs, acc =>
    match valorJson fuel cs with
    | none => none
    | some (v, r1) =>
      match saltarEspacios r1 with
      | [] => none
      | c2 :: r2 =>
        if c2 == ',' then bucleLista fuel (saltarEspacios r2) (acc ++ [v])
        else if c2 == ']' then some (JVal.lista (acc ++ [v]), r2)
        else none

end

/-- `json.loads`: skip whitespace, read one value, require the rest to be
whitespace.  The fuel `4 * length + 4` dominates the recursion depth: at
least one character is consumed for every three fuel units spent. -/
def analizarJson (s : List Char) : Option JVal :=
  match valorJson (4 * s.length + 4) (saltarEspacios s) with
  | some (v, resto) => if (saltarEspacios resto).isEmpty then some v else none
  | none => none

/-- Message of line 185.  The real message appends the `JSONDecodeError`
text; no claim inspects it, so the detail is not modeled. -/
def msgNoJson : List Char := ("Respuesta no es JSON válido: ").data

/-- `validar_json` (procesador.py lines 169-223): fence cleanup, JSON
parse, then the structural and field checks. -/
def validar_json (respuesta_texto : List Char) : Except (List Char) JVal :=
  let texto := limpiar respuesta_texto
  match analizarJson texto with
  | none => .error msgNoJson
  | some datos => validar_datos datos

/-! ### The retrying extractor (`extraer_datos`, lines 226-267) -/

/-- Outcome of one completion request: either the raw reply text, or an
exception raised by the OpenAI client (any non-`ValueError` exception,
handled by the `except Exception` arm). -/
inductive Intento where
  | respuesta (texto : List Char)
  | errorApi (mensaje : List Char)

/-- `MAX_REINTENTOS` (line 30). -/
def MAX_REINTENTOS : Nat := 3

def natRepr (n : Nat) : List Char := (toString n).data

/-- Message of lines 254-257, carrying the last validation error. -/
def msgFatalValidacion (e : List Char) : List Char :=
  ("Falló la extracción después de ").data ++ natRepr MAX_REINTENTOS ++
    (" intentos. Último error: ").data ++ e

/-- Message of lines 262-264, carrying the last API error. -/
def msgFatalApi (e : List Char) : List Char :=
  ("Error de API después de ").data ++ natRepr MAX_REINTENTOS ++
    (" intentos: ").data ++ e

/-- Message of line 267 (unreachable in the source). -/
def msgInesperado : List Char := ("Error inesperado en extraer_datos.").data

/-- Result of the retry loop together with the attempt indices at which a
completion request was actually issued (one entry per `create` call). -/
structure ResultadoExtraccion where
  resultado : Except (List Char) JVal
  llamadas : List Nat

/-- The body of the `for intento in range(1, MAX_REINTENTOS + 1)` loop.
`respuestas n` is the outcome of the fresh completion request of attempt
`n` for this document's text.  A `ValueError` from `validar_json` or an
API exception at `intento == MAX_REINTENTOS` raises the fatal
`RuntimeError`; earlier failures continue with the next attempt. -/
def extraerDesde (respuestas : Nat → Intento) : Nat → Nat → ResultadoExtraccion
  | _, 0 => ⟨.error msgInesperado, []⟩
  | intento, quedan + 1 =>
    match respuestas intento with
    | .respuesta txt =>
      match validar_json txt with
      | .ok datos => ⟨.ok datos, [intento]⟩
      | .error e =>
        if intento == MAX_REINTENTOS then ⟨.error (msgFatalValidacion e), [intento]⟩
        else
          let r := extraerDesde respuestas (intento + 1) quedan
          ⟨r.resultado, intento :: r.llamadas⟩
    | .errorApi e =>
      if intento == MAX_REINTENTOS then ⟨.error (msgFatalApi e), [intento]⟩
      else
        let r := extraerDesde respuestas (intento + 1) quedan
        ⟨r.resultado, intento :: r.llamadas⟩

/-- `extraer_datos` (lines 226-267): up to `MAX_REINTENTOS` attempts,
starting at attempt 1. -/
def extraer_datos (respuestas : Nat → Intento) : ResultadoExtraccion :=
  extraerDesde respuestas 1 MAX_REINTENTOS

/-! ### The batch orchestrator (`procesar_archivos`, lines 270-346)

Directory contents are a list of entries; each entry carries the outcome
its format reader would produce (`lecturaFmt`, absorbing the file-system
and library effects of `_leer_txt`/`_leer_pdf`/`_leer_docx`/`_leer_excel`)
and the per-attempt completion outcomes for its text (`respuestas`). -/

/-- The reader a supported extension dispatches to (lines 93-100). -/
inductive Formato where
  | txt
  | pdf
  | docx
  | excel

/-- One directory entry. -/
structure Entrada where
  nombre : List Char
  esArchivo : Bool
  lecturaFmt : Formato → Except (List Char) (List Char)
  respuestas : Nat → Intento

/-- `EXTENSIONES_SOPORTADAS` (line 35). -/
def EXTENSIONES_SOPORTADAS : List (List Char) :=
  [(".txt").data, (".pdf").data, (".docx").data, (".xlsx").data, (".xls").data]

/-- Python `str.lower()`.  `Char.toLower` lowers only ASCII; Python lowers
all cased code points, but the two agree on every string that can reach a
supported extension. -/
def minusculas (s : List Char) : List Char := s.map Char.toLower

/-- The suffix of a name starting at its last dot, if any. -/
def sufijoAux : List Char → Option (List Char)
  | [] => none
  | c :: cs =>
    match sufijoAux cs with
    | some s => some s
    | none => if c == '.' then some (c :: cs) else none

/-- `pathlib.PurePath.suffix`: the part of the final component from its
last dot, empty when the dot is the first character (hidden files) or the
last one. -/
def sufijo (nombre : List Char) : List Char :=
  match nombre with
  | [] => []
  | _ :: resto =>
    match sufijoAux resto with
    | some s => if 2 ≤ s.length then s else []
    | none => []

/-- The generator filter of lines 282-285:
`f.is_file() and f.suffix.lower() in EXTENSIONES_SOPORTADAS`. -/
def esCandidato (e : Entrada) : Bool :=
  e.esArchivo && EXTENSIONES_SOPORTADAS.any (fun ext => minusculas (sufijo e.nombre) == ext)

/-- Python string `<`: lexicographic by code point. -/
def menorLex : List Char → List Char → Bool
  | [], [] => false
  | [], _ :: _ => true
  | _ :: _, [] => false
  | a :: resto1, b :: resto2 =>
    if a == b then menorLex resto1 resto2 else decide (a < b)

def insertarOrden (e : Entrada) : List Entrada → List Entrada
  | [] => [e]
  | x :: xs => if menorLex e.nombre x.nombre then e :: x :: xs else x :: insertarOrden e xs

/-- `sorted(...)` over paths in one directory: order by filename. -/
def ordenar : List Entrada → List Entrada
  | [] => []
  | e :: es => insertarOrden e (ordenar es)

/-- `archivos` (lines 282-285): the sorted supported candidates. -/
def archivosSoportados (dir : List Entrada) : List Entrada :=
  ordenar (dir.filter esCandidato)

/-- The extension dispatch of `leer_archivo` (lines 91-100). -/
def formatoDe (ext : List Char) : Option Formato :=
  if ext == (".txt").data then some .txt
  else if ext == (".pdf").data then some .pdf
  else if ext == (".docx").data then some .docx
  else if ext == (".xlsx").data || ext == (".xls").data then some .excel
  else none

/-- Message of line 102. -/
def msgNoSoportado (ext nombre : List Char) : List Char :=
  ("Formato no soportado: ").data ++ ext ++ (" (archivo: ").data ++ nombre ++ (")").data

/-- `leer_archivo` (lines 86-102): dispatch on the lower-cased suffix; an
unsupported extension raises `ValueError`. -/
def leer_archivo (e : Entrada) : Except (List Char) (List Char) :=
  let ext := minusculas (sufijo e.nombre)
  match formatoDe ext with
  | some f => e.lecturaFmt f
  | none => .error (msgNoSoportado ext e.nombre)

/-- The exception classes that can escape `procesar_archivos`. -/
inductive ExcepcionPy where
  | valueError (m : List Char)
  | environmentError (m : List Char)

/-- One success record (lines 306-310); the `procesado_en` timestamp is an
effect and is omitted (see the header). -/
structure Resultado where
  archivo_origen : List Char
  datos_extraidos : JVal

/-- One failure record (line 323). -/
structure ErrorRegistrado where
  archivo : List Char
  error : List Char

/-- Observable outcome of a batch run: the returned results, the recorded
errors, the artifact files written in order, whether the summary artifact
was written, and whether the empty-directory warning was logged. -/
structure Lote where
  resultados : List Resultado
  errores : List ErrorRegistrado
  escritos : List (List Char)
  resumenEscrito : Bool
  avisoVacio : Bool

/-- `pathlib.PurePath.stem`: the name minus its suffix. -/
def raiz (nombre : List Char) : List Char :=
  nombre.take (nombre.length - (sufijo nombre).length)

/-- `f"{archivo.stem}_resultado.json"` (line 314). -/
def nombreResultado (e : Entrada) : List Char :=
  raiz e.nombre ++ ("_resultado.json").data

/-- The per-document loop (lines 298-323) followed by the summary write
(lines 326-339).  The `try` block catches only `RuntimeError` (line 321),
so the `RuntimeError` of `extraer_datos` is recorded and the loop
continues, while a `ValueError` from `leer_archivo` propagates and aborts
the run. -/
def procesarLista : List Entrada → Lote → Except ExcepcionPy Lote
  | [], estado =>
    .ok { estado with
      escritos := estado.escritos ++ [("resumen_completo.json").data],
      resumenEscrito := true }
  | e :: resto, estado =>
    match leer_archivo e with
    | .error m => .error (.valueError m)
    | .ok _ =>
      match (extraer_datos e.respuestas).resultado with
      | .ok datos =>
        procesarLista resto { estado with
          resultados := estado.resultados ++ [⟨e.nombre, datos⟩],
          escritos := estado.escritos ++ [nombreResultado e] }
      | .error m =>
        procesarLista resto { estado with errores := estado.errores ++ [⟨e.nombre, m⟩] }

/-- The API-key validation of `crear_cliente_openai` (lines 75-83). -/
def claveValida (apiKey : List Char) : Bool :=
  !(apiKey == []) && !(apiKey == ("sk-tu-api-key-aqui").data)

/-- Message of lines 79-82. -/
def msgClave : List Char :=
  ("OPENAI_API_KEY no configurada. Edita el archivo .env con tu API key válida.").data

def loteInicial : Lote := ⟨[], [], [], false, false⟩

/-- `procesar_archivos` (lines 270-346).  `apiKey` is the value of the
`OPENAI_API_KEY` environment variable (empty when unset); an invalid key
raises `EnvironmentError` before any file is touched.  With no supported
candidates the run warns and returns the empty result, writing nothing. -/
def procesar_archivos (apiKey : List Char) (dir : List Entrada) : Except ExcepcionPy Lote :=
  if !(claveValida apiKey) then .error (.environmentError msgClave)
  else
    let archivos := archivosSoportados dir
    if archivos.isEmpty then .ok { loteInicial with avisoVacio := true }
    else procesarLista archivos loteInicial

/-! ### Fence-stripping invariance

A JSON text accepted by the decoder cannot contain a line whose first
non-whitespace character is a backtick: backticks occur only inside string
literals, string literals contain no raw newline, and every line break
therefore sits in inter-token whitespace followed by a token character.
The scanner `seguroDesde` states this line property as a left-to-right
automaton whose Boolean state records whether the current line already
contains a non-whitespace character. -/

/-- Line-safety scanner.  `seguroDesde b t` is true when no line of `t`
has a backtick as its first non-whitespace character, where `b` says the
current line already carries a non-whitespace character before `t`. -/
def seguroDesde : Bool → List Char → Bool
  | _, [] => true
  | b, c :: cs =>
    if c = nl then seguroDesde false cs
    else if esEspacioPy c then seguroDesde b cs
    else if c = bq then b && seguroDesde true cs
    else seguroDesde true cs

/-- No line of `t` starts (after whitespace) with a backtick. -/
def textoSeguro (t : List Char) : Bool := seguroDesde false t

/-- Ending state of the scanner. -/
def estadoFinal : Bool → List Char → Bool
  | b, [] => b
  | b, c :: cs =>
    if c = nl then estadoFinal false cs
    else if esEspacioPy c then estadoFinal b cs
    else estadoFinal true cs

/-- A segment that is line-safe from either incoming state; such segments
compose under concatenation. -/
def SegmentoSeguro (s : List Char) : Prop := ∀ b, seguroDesde b s = true

theorem bq_ne_nl : ¬ bq = nl := by decide

theorem esEspacioPy_bq : esEspacioPy bq = false := by decide

theorem seguroDesde_append :
    ∀ (x : List Char) (b : Bool) (y : List Char),
      seguroDesde b (x ++ y) = (seguroDesde b x && seguroDesde (estadoFinal b x) y) := by
  intro x
  induction x with
  | nil => intro b y; simp [seguroDesde, estadoFinal]
  | cons c cs ih =>
    intro b y
    by_cases hnl : c = nl
    · simp [seguroDesde, estadoFinal, hnl, ih]
    · by_cases hsp : esEspacioPy c = true
      · simp [seguroDesde, estadoFinal, hnl, hsp, ih]
      · by_cases hbq : c = bq
        · simp [seguroDesde, estadoFinal, hnl, hsp, hbq, ih, Bool.and_assoc,
            bq_ne_nl, esEspacioPy_bq]
        · simp [seguroDesde, estadoFinal, hnl, hsp, hbq, ih]

theorem segmento_append {x y : List Char}
    (hx : SegmentoSeguro x) (hy : SegmentoSeguro y) : SegmentoSeguro (x ++ y) := by
  intro b
  rw [seguroDesde_append, hx b, hy (estadoFinal b x)]
  rfl

theorem segmento_nil : SegmentoSeguro [] := by
  intro b; rfl

/-- Scanning with the state already set never fails on newline-free text. -/
theorem seguro_true_sin_nl :
    ∀ s : List Char, nl ∉ s → seguroDesde true s = true := by
  intro s
  induction s with
  | nil => intro _; rfl
  | cons c cs ih =>
    intro h
    have hc : c ≠ nl := fun he => h (he ▸ List.mem_cons_self c cs)
    have hcs : nl ∉ cs := fun hm => h (List.mem_cons_of_mem c hm)
    by_cases hsp : esEspacioPy c = true
    · simp [seguroDesde, hc, hsp, ih hcs]
    · by_cases hbq : c = bq
      · simp [seguroDesde, hc, hsp, hbq, ih hcs, bq_ne_nl, esEspacioPy_bq]
      · simp [seguroDesde, hc, hsp, hbq, ih hcs]

/-- A token segment: non-whitespace, non-backtick head, no newline inside. -/
theorem segmento_token {c : Char} {s : List Char}
    (hsp : esEspacioPy c = false) (hbq : c ≠ bq) (hnl : nl ∉ c :: s) :
    SegmentoSeguro (c :: s) := by
  intro b
  have hc : c ≠ nl := fun he => hnl (he ▸ List.mem_cons_self c s)
  have hs : nl ∉ s := fun hm => hnl (List.mem_cons_of_mem c hm)
  simp [seguroDesde, hc, hsp, hbq, seguro_true_sin_nl s hs]

/-- A run of whitespace characters is a safe segment. -/
theorem segmento_espacios :
    ∀ s : List Char, (∀ c ∈ s, esEspacioPy c = true) → SegmentoSeguro s := by
  intro s
  induction s with
  | nil => intro _; exact segmento_nil
  | cons c cs ih =>
    intro h b
    have hc : esEspacioPy c = true := h c (List.mem_cons_self c cs)
    have hcs := ih (fun d hd => h d (List.mem_cons_of_mem c hd))
    by_cases hnl : c = nl
    · simp [seguroDesde, hnl, hcs false]
    · simp [seguroDesde, hnl, hc, hcs b]

theorem partir_ne_nil (sep : Char) : ∀ s : List Char, partir sep s ≠ [] := by
  intro s
  cases s with
  | nil => simp [partir]
  | cons c cs =>
    by_cases h : c = sep
    · simp [partir, h]
    · simp [partir, h]

theorem pstrip_cons_espacio {c : Char} (h : esEspacioPy c = true) (t : List Char) :
    pstrip (c :: t) = pstrip t := by
  simp [pstrip, List.dropWhile, h]

theorem dropWhile_snoc_no {c : Char} (h : esEspacioPy c = false) :
    ∀ l : List Char, ∃ w, (l ++ [c]).dropWhile esEspacioPy = w ++ [c] := by
  intro l
  induction l with
  | nil => exact ⟨[], by simp [List.dropWhile, h]⟩
  | cons x xs ih =>
    by_cases hx : esEspacioPy x = true
    · obtain ⟨w, hw⟩ := ih
      exact ⟨w, by simpa [List.dropWhile, hx] using hw⟩
    · exact ⟨x :: xs, by simp [List.dropWhile, hx]⟩

theorem pstrip_cons_noespacio {c : Char} (h : esEspacioPy c = false) (t : List Char) :
    ∃ w, pstrip (c :: t) = c :: w := by
  unfold pstrip
  rw [show (c :: t).dropWhile esEspacioPy = c :: t by simp [List.dropWhile, h]]
  rw [show (c :: t).reverse = t.reverse ++ [c] by simp]
  obtain ⟨w, hw⟩ := dropWhile_snoc_no h t.reverse
  exact ⟨w.reverse, by rw [hw]; simp⟩

theorem empiezaCon_valla_cons {c : Char} (h : c ≠ bq) (t : List Char) :
    empiezaCon valla (c :: t) = false := by
  have hb : (bq == c) = false := by
    simp only [beq_eq_false_iff_ne]
    exact fun he => h he.symm
  simp [valla, empiezaCon, hb]

/-- Bridge from the scanner to the per-line fence test used by `limpiar`:
on a safely scanned text, no split line strips to a fence prefix.  The
first component covers every line after the first (any incoming state);
the second covers all lines when the current line is still blank. -/
theorem puente :
    ∀ t : List Char,
      (∀ b, seguroDesde b t = true →
        ∀ l ∈ (lineas t).tail, empiezaCon valla (pstrip l) = false) ∧
      (seguroDesde false t = true →
        ∀ l ∈ lineas t, empiezaCon valla (pstrip l) = false) := by
  intro t
  induction t with
  | nil =>
    constructor
    · intro b _ l hl
      simp [lineas, partir] at hl
    · intro _ l hl
      simp [lineas, partir] at hl
      subst hl
      rfl
  | cons c cs ih =>
    by_cases hnl : c = nl
    · subst hnl
      have hlin : lineas (nl :: cs) = [] :: lineas cs := by simp [lineas, partir]
      constructor
      · intro b h l hl
        rw [hlin] at hl
        have h' : seguroDesde false cs = true := by simpa [seguroDesde] using h
        exact ih.2 h' l hl
      · intro h l hl
        rw [hlin] at hl
        have h' : seguroDesde false cs = true := by simpa [seguroDesde] using h
        rcases List.mem_cons.mp hl with he | hm
        · subst he; rfl
        · exact ih.2 h' l hm
    · have hlin : lineas (c :: cs) =
          (c :: (lineas cs).headD []) :: (lineas cs).tail := by
        simp [lineas, partir, hnl]
      obtain ⟨h1, t1, hct⟩ := List.exists_cons_of_ne_nil (partir_ne_nil nl cs)
      have hct' : lineas cs = h1 :: t1 := hct
      by_cases hsp : esEspacioPy c = true
      · constructor
        · intro b h l hl
          rw [hlin] at hl
          have h' : seguroDesde b cs = true := by simpa [seguroDesde, hnl, hsp] using h
          exact ih.1 b h' l hl
        · intro h l hl
          have h' : seguroDesde false cs = true := by simpa [seguroDesde, hnl, hsp] using h
          rw [hlin] at hl
          rcases List.mem_cons.mp hl with he | hm
          · subst he
            rw [pstrip_cons_espacio hsp]
            exact ih.2 h' ((lineas cs).headD []) (by rw [hct']; exact List.mem_cons_self h1 t1)
          · exact ih.2 h' l (by rw [hct'] at hm ⊢; exact List.mem_cons_of_mem h1 hm)
      · have hsp' : esEspacioPy c = false := by simpa using hsp
        by_cases hbq : c = bq
        · constructor
          · intro b h l hl
            rw [hlin] at hl
            have h' : seguroDesde true cs = true := by
              have h0 := h
              simp [seguroDesde, hnl, hsp, hbq, bq_ne_nl, esEspacioPy_bq] at h0
              exact h0.2
            exact ih.1 true h' l hl
          · intro h _ _
            have h0 := h
            simp [seguroDesde, hnl, hsp, hbq, bq_ne_nl, esEspacioPy_bq] at h0
        · constructor
          · intro b h l hl
            rw [hlin] at hl
            have h' : seguroDesde true cs = true := by
              simpa [seguroDesde, hnl, hsp, hbq] using h
            exact ih.1 true h' l hl
          · intro h l hl
            have h' : seguroDesde true cs = true := by
              simpa [seguroDesde, hnl, hsp, hbq] using h
            rw [hlin] at hl
            rcases List.mem_cons.mp hl with he | hm
            · subst he
              obtain ⟨w, hw⟩ := pstrip_cons_noespacio hsp' ((lineas cs).headD [])
              rw [hw]
              exact empiezaCon_valla_cons hbq w
            · exact ih.1 true h' l hm

/-- On a safely scanned text, the overall strip does not expose a fence. -/
theorem primer_noespacio :
    ∀ t : List Char, seguroDesde false t = true → empiezaCon valla (pstrip t) = false := by
  intro t
  induction t with
  | nil => intro _; rfl
  | cons c cs ih =>
    intro h
    by_cases hnl : c = nl
    · have h' : seguroDesde false cs = true := by simpa [seguroDesde, hnl] using h
      rw [pstrip_cons_espacio (by simp [esEspacioPy, hnl]) cs]
      exact ih h'
    · by_cases hsp : esEspacioPy c = true
      · have h' : seguroDesde false cs = true := by simpa [seguroDesde, hnl, hsp] using h
        rw [pstrip_cons_espacio hsp cs]
        exact ih h'
      · have hsp' : esEspacioPy c = false := by simpa using hsp
        by_cases hbq : c = bq
        · have h0 := h
          simp [seguroDesde, hnl, hsp, hbq, bq_ne_nl, esEspacioPy_bq] at h0
        · obtain ⟨w, hw⟩ := pstrip_cons_noespacio hsp' cs
          rw [hw]
          exact empiezaCon_valla_cons hbq w

/-! ### The decoder consumes line-safe segments -/

theorem esEspacioJson_py {c : Char} (h : esEspacioJson c = true) : esEspacioPy c = true := by
  have h4 : c = ' ' ∨ c = '\t' ∨ c = nl ∨ c = '\r' := by
    simpa [esEspacioJson, or_assoc] using h
  rcases h4 with h | h | h | h <;> subst h <;> decide

theorem saltar_descomp :
    ∀ cs : List Char, ∃ w, cs = w ++ saltarEspacios cs ∧ ∀ c ∈ w, esEspacioJson c = true := by
  intro cs
  induction cs with
  | nil => exact ⟨[], rfl, by intro c hc; simp at hc⟩
  | cons c cs ih =>
    by_cases h : esEspacioJson c = true
    · obtain ⟨w, hw, hws⟩ := ih
      refine ⟨c :: w, ?_, ?_⟩
      · rw [saltarEspacios]
        simp only [h, if_true]
        simpa using congrArg (c :: ·) hw
      · intro d hd
        rcases List.mem_cons.mp hd with he | hm
        · exact he ▸ h
        · exact hws d hm
    · refine ⟨[], ?_, by intro d hd; simp at hd⟩
      rw [saltarEspacios]
      simp [h]

theorem segmento_saltado {w : List Char} (h : ∀ c ∈ w, esEspacioJson c = true) :
    SegmentoSeguro w :=
  segmento_espacios w (fun c hc => esEspacioJson_py (h c hc))

theorem valorHex_no_nl {x : Char} {v : Nat} (h : valorHex x = some v) : x ≠ nl := by
  intro he
  subst he
  have hv : valorHex nl = none := by decide
  rw [hv] at h
  exact (Option.noConfusion h)

theorem hex4_no_nl {a b c d : Char} {n : Nat} (h : hex4 a b c d = some n) :
    a ≠ nl ∧ b ≠ nl ∧ c ≠ nl ∧ d ≠ nl := by
  unfold hex4 at h
  rcases ha : valorHex a with _ | va <;> rw [ha] at h
  · exact (Option.noConfusion h)
  rcases hb : valorHex b with _ | vb <;> rw [hb] at h
  · exact (Option.noConfusion h)
  rcases hc : valorHex c with _ | vc <;> rw [hc] at h
  · exact (Option.noConfusion h)
  rcases hd : valorHex d with _ | vd <;> rw [hd] at h
  · exact (Option.noConfusion h)
  exact ⟨valorHex_no_nl ha, valorHex_no_nl hb, valorHex_no_nl hc, valorHex_no_nl hd⟩

theorem escapeSimple_no_nl {e ch : Char} (h : escapeSimple e = some ch) : e ≠ nl := by
  intro he
  subst he
  have hv : escapeSimple nl = none := by decide
  rw [hv] at h
  exact (Option.noConfusion h)

theorem pasoEscape_descomp :
    ∀ {cs : List Char} {ch : Char} {cs2 : List Char},
      pasoEscape cs = some (ch, cs2) → ∃ s, cs = s ++ cs2 ∧ nl ∉ s := by
  intro cs ch cs2 h
  rcases cs with _ | ⟨e, cs'⟩
  · unfold pasoEscape at h
    exact (Option.noConfusion h)
  unfold pasoEscape at h
  dsimp only at h
  by_cases heu : (e == 'u') = true
  · have he : e = 'u' := eq_of_beq heu
    subst he
    simp only [if_pos heu] at h
    rcases cs' with _ | ⟨a, _ | ⟨b, _ | ⟨c, _ | ⟨d, cs3⟩⟩⟩⟩ <;> dsimp only at h
    · exact (Option.noConfusion h)
    · exact (Option.noConfusion h)
    · exact (Option.noConfusion h)
    · exact (Option.noConfusion h)
    rcases hh : hex4 a b c d with _ | n <;> rw [hh] at h <;> dsimp only at h
    · exact (Option.noConfusion h)
    obtain ⟨ha, hb, hc, hd⟩ := hex4_no_nl hh
    have hnoS : nl ∉ ['u', a, b, c, d] := by
      intro hm
      simp only [List.mem_cons, List.not_mem_nil, or_false] at hm
      rcases hm with he | he | he | he | he
      · exact absurd he (by decide)
      · exact ha he.symm
      · exact hb he.symm
      · exact hc he.symm
      · exact hd he.symm
    by_cases hsur : 0xD800 ≤ n ∧ n ≤ 0xDBFF
    · rw [if_pos hsur] at h
      rcases cs3 with _ | ⟨s1, _ | ⟨s2, _ | ⟨a2, _ | ⟨b2, _ | ⟨c3, _ | ⟨d2, cs4⟩⟩⟩⟩⟩⟩ <;>
        dsimp only at h
      all_goals try
        (simp only [Option.some.injEq, Prod.mk.injEq] at h
         obtain ⟨-, h2⟩ := h
         subst h2
         exact ⟨['u', a, b, c, d], by simp, hnoS⟩)
      by_cases hbs : (s1 == '\\' && s2 == 'u') = true
      · rw [if_pos hbs] at h
        have hs1 : s1 = '\\' := eq_of_beq (Bool.and_eq_true_iff.mp hbs).1
        have hs2 : s2 = 'u' := eq_of_beq (Bool.and_eq_true_iff.mp hbs).2
        rcases hh2 : hex4 a2 b2 c3 d2 with _ | n2 <;> rw [hh2] at h <;> dsimp only at h
        · simp only [Option.some.injEq, Prod.mk.injEq] at h
          obtain ⟨-, h2⟩ := h
          subst h2
          exact ⟨['u', a, b, c, d], by simp, hnoS⟩
        obtain ⟨ha2, hb2, hc2, hd2⟩ := hex4_no_nl hh2
        by_cases hlow : 0xDC00 ≤ n2 ∧ n2 ≤ 0xDFFF
        · rw [if_pos hlow] at h
          simp only [Option.some.injEq, Prod.mk.injEq] at h
          obtain ⟨-, h2⟩ := h
          subst h2
          refine ⟨['u', a, b, c, d, s1, s2, a2, b2, c3, d2], by simp, ?_⟩
          intro hm
          simp only [List.mem_cons, List.not_mem_nil, or_false] at hm
          rcases hm with he | he | he | he | he | he | he | he | he | he | he
          · exact absurd he (by decide)
          · exact ha he.symm
          · exact hb he.symm
          · exact hc he.symm
          · exact hd he.symm
          · exact absurd (hs1 ▸ he) (by decide)
          · exact absurd (hs2 ▸ he) (by decide)
          · exact ha2 he.symm
          · exact hb2 he.symm
          · exact hc2 he.symm
          · exact hd2 he.symm
        · rw [if_neg hlow] at h
          simp only [Option.some.injEq, Prod.mk.injEq] at h
          obtain ⟨-, h2⟩ := h
          subst h2
          exact ⟨['u', a, b, c, d], by simp, hnoS⟩
      · rw [if_neg hbs] at h
        simp only [Option.some.injEq, Prod.mk.injEq] at h
        obtain ⟨-, h2⟩ := h
        subst h2
        exact ⟨['u', a, b, c, d], by simp, hnoS⟩
    · rw [if_neg hsur] at h
      simp only [Option.some.injEq, Prod.mk.injEq] at h
      obtain ⟨-, h2⟩ := h
      subst h2
      exact ⟨['u', a, b, c, d], by simp, hnoS⟩
  · rw [if_neg heu] at h
    rcases hes : escapeSimple e with _ | ch' <;> rw [hes] at h <;> dsimp only at h
    · exact (Option.noConfusion h)
    simp only [Option.some.injEq, Prod.mk.injEq] at h
    obtain ⟨-, h2⟩ := h
    subst h2
    refine ⟨[e], by simp, ?_⟩
    intro hm
    simp only [List.mem_cons, List.not_mem_nil, or_false] at hm
    exact (escapeSimple_no_nl hes) hm.symm

theorem cuerpo_descomp :
    ∀ (fuel : Nat) (cs : List Char),
      ∀ {content r : List Char}, cuerpoCadena fuel cs = some (content, r) →
        ∃ s, cs = s ++ r ∧ nl ∉ s := by
  intro fuel
  induction fuel with
  | zero =>
    intro cs content r h
    rw [cuerpoCadena] at h
    exact (Option.noConfusion h)
  | succ n ih =>
    intro cs content r h
    rcases cs with _ | ⟨c, cs1⟩
    · rw [cuerpoCadena] at h
      exact (Option.noConfusion h)
    rw [cuerpoCadena] at h
    by_cases h1 : (c == '"') = true
    · rw [if_pos h1] at h
      simp only [Option.some.injEq, Prod.mk.injEq] at h
      obtain ⟨-, h2⟩ := h
      subst h2
      refine ⟨[c], by simp, ?_⟩
      intro hm
      simp only [List.mem_cons, List.not_mem_nil, or_false] at hm
      exact absurd ((eq_of_beq h1) ▸ hm.symm) (by decide)
    · rw [if_neg h1] at h
      by_cases h2 : (c == '\\') = true
      · rw [if_pos h2] at h
        rcases hpe : pasoEscape cs1 with _ | ⟨ch, cs2⟩ <;> rw [hpe] at h <;> dsimp only at h
        · exact (Option.noConfusion h)
        rcases hcc : cuerpoCadena n cs2 with _ | ⟨content2, r2⟩ <;> rw [hcc] at h
        · exact (Option.noConfusion h)
        simp only [Option.map_some', Option.some.injEq, Prod.mk.injEq] at h
        obtain ⟨-, hr⟩ := h
        subst hr
        obtain ⟨s0, hs0, hs0nl⟩ := pasoEscape_descomp hpe
        obtain ⟨s1, hs1, hs1nl⟩ := ih cs2 hcc
        refine ⟨c :: (s0 ++ s1), ?_, ?_⟩
        · simp only [List.cons_append, List.append_assoc]
          rw [← hs1, ← hs0]
        · intro hm
          rcases List.mem_cons.mp hm with he | hm
          · exact absurd ((eq_of_beq h2) ▸ he).symm (by decide)
          · rcases List.mem_append.mp hm with hm | hm
            · exact hs0nl hm
            · exact hs1nl hm
      · rw [if_neg h2] at h
        by_cases h3 : c.toNat < 0x20
        · rw [if_pos h3] at h
          exact (Option.noConfusion h)
        · rw [if_neg h3] at h
          rcases hcc : cuerpoCadena n cs1 with _ | ⟨content2, r2⟩ <;> rw [hcc] at h
          · exact (Option.noConfusion h)
          simp only [Option.map_some', Option.some.injEq, Prod.mk.injEq] at h
          obtain ⟨-, hr⟩ := h
          subst hr
          obtain ⟨s1, hs1, hs1nl⟩ := ih cs1 hcc
          refine ⟨c :: s1, ?_, ?_⟩
          · simp only [List.cons_append]
            rw [← hs1]
          · intro hm
            rcases List.mem_cons.mp hm with he | hm
            · subst he
              exact h3 (by decide)
            · exact hs1nl hm

theorem esDigito_no_nl {c : Char} (h : esDigito c = true) : c ≠ nl := by
  intro he
  subst he
  exact absurd h (by decide)

theorem tomar_descomp :
    ∀ cs : List Char,
      (tomarDigitos cs).1 ++ (tomarDigitos cs).2 = cs ∧
        ∀ c ∈ (tomarDigitos cs).1, esDigito c = true := by
  intro cs
  induction cs with
  | nil => exact ⟨rfl, by intro c hc; simp [tomarDigitos] at hc⟩
  | cons c cs ih =>
    by_cases h : esDigito c = true
    · rw [tomarDigitos]
      simp only [h, if_true]
      refine ⟨?_, ?_⟩
      · simpa using congrArg (c :: ·) ih.1
      · intro d hd
        rcases List.mem_cons.mp hd with he | hm
        · exact he ▸ h
        · exact ih.2 d hm
    · rw [tomarDigitos]
      simp only [h, Bool.false_eq_true, if_false]
      exact ⟨rfl, by intro d hd; simp at hd⟩

theorem sin_nl_digitos {ds : List Char} (h : ∀ c ∈ ds, esDigito c = true) : nl ∉ ds :=
  fun hm => (esDigito_no_nl (h nl hm)) rfl

theorem fraccion_descomp :
    ∀ rest : List Char, ∃ s, rest = s ++ (parteFraccion rest).2 ∧ nl ∉ s := by
  intro rest
  rcases rest with _ | ⟨p, r1⟩
  · exact ⟨[], by simp [parteFraccion], by simp⟩
  unfold parteFraccion
  by_cases hp : (p == '.') = true
  · simp only [hp, if_true]
    rcases htd : tomarDigitos r1 with ⟨ds, r2⟩
    rcases ds with _ | ⟨d0, ds1⟩
    · exact ⟨[], by simp, by simp⟩
    · obtain ⟨happ, hdig⟩ := tomar_descomp r1
      rw [htd] at happ hdig
      refine ⟨p :: d0 :: ds1, ?_, ?_⟩
      · simpa using congrArg (p :: ·) happ.symm
      · intro hm
        rcases List.mem_cons.mp hm with he | hm
        · exact absurd ((eq_of_beq hp) ▸ he).symm (by decide)
        · exact (esDigito_no_nl (hdig nl hm)) rfl
  · simp only [hp, Bool.false_eq_true, if_false]
    exact ⟨[], by simp, by simp⟩

theorem exponente_descomp :
    ∀ rest : List Char, ∃ s, rest = s ++ (parteExponente rest).2 ∧ nl ∉ s := by
  intro rest
  rcases rest with _ | ⟨e, r1⟩
  · exact ⟨[], by simp [parteExponente], by simp⟩
  unfold parteExponente
  by_cases he : (e == 'e' || e == 'E') = true
  · simp only [he, if_true]
    have heNoNl : e ≠ nl := by
      rcases Bool.or_eq_true_iff.mp he with h9 | h9 <;>
        exact fun h0 => absurd ((eq_of_beq h9) ▸ h0).symm (by decide)
    rcases r1 with _ | ⟨s0, r2⟩
    · exact ⟨[], by simp, by simp⟩
    by_cases hs : (s0 == '+' || s0 == guion) = true
    · simp only [hs, if_true]
      have hsNoNl : s0 ≠ nl := by
        rcases Bool.or_eq_true_iff.mp hs with h9 | h9 <;>
          exact fun h0 => absurd ((eq_of_beq h9) ▸ h0).symm (by decide)
      rcases htd : tomarDigitos r2 with ⟨ds, r3⟩
      rcases ds with _ | ⟨d0, ds1⟩
      · exact ⟨[], by simp, by simp⟩
      · obtain ⟨happ, hdig⟩ := tomar_descomp r2
        rw [htd] at happ hdig
        refine ⟨e :: s0 :: d0 :: ds1, ?_, ?_⟩
        · simp only [List.cons_append, List.cons.injEq, true_and]
          simpa using happ.symm
        · intro hm
          rcases List.mem_cons.mp hm with h0 | hm
          · exact heNoNl h0.symm
          rcases List.mem_cons.mp hm with h0 | hm
          · exact hsNoNl h0.symm
          · exact (esDigito_no_nl (hdig nl hm)) rfl
    · simp only [hs, Bool.false_eq_true, if_false]
      rcases htd : tomarDigitos (s0 :: r2) with ⟨ds, r3⟩
      rcases ds with _ | ⟨d0, ds1⟩
      · exact ⟨[], by simp, by simp⟩
      · obtain ⟨happ, hdig⟩ := tomar_descomp (s0 :: r2)
        rw [htd] at happ hdig
        refine ⟨e :: d0 :: ds1, ?_, ?_⟩
        · simp only [List.cons_append, List.cons.injEq, true_and]
          simpa using happ.symm
        · intro hm
          rcases List.mem_cons.mp hm with h0 | hm
          · exact heNoNl h0.symm
          · exact (esDigito_no_nl (hdig nl hm)) rfl
  · simp only [he, Bool.false_eq_true, if_false]
    exact ⟨[], by simp, by simp⟩

theorem despues_descomp :
    ∀ {neg : Bool} {n : Nat} {rest : List Char} {v : JVal} {r : List Char},
      despuesEntero neg n rest = some (v, r) → ∃ s, rest = s ++ r ∧ nl ∉ s := by
  intro neg n rest v r h
  unfold despuesEntero at h
  have hr : r = (parteExponente (parteFraccion rest).2).2 := by
    by_cases hf : ((parteFraccion rest).1 || (parteExponente (parteFraccion rest).2).1) = true
    · rw [if_pos hf] at h
      simp only [Option.some.injEq, Prod.mk.injEq] at h
      exact h.2.symm
    · rw [if_neg hf] at h
      simp only [Option.some.injEq, Prod.mk.injEq] at h
      exact h.2.symm
  obtain ⟨s1, hs1, hs1nl⟩ := fraccion_descomp rest
  obtain ⟨s2, hs2, hs2nl⟩ := exponente_descomp (parteFraccion rest).2
  refine ⟨s1 ++ s2, ?_, ?_⟩
  · rw [hr, List.append_assoc, ← hs2, ← hs1]
  · intro hm
    rcases List.mem_append.mp hm with hm | hm
    · exact hs1nl hm
    · exact hs2nl hm

theorem numero_descomp :
    ∀ {cs : List Char} {v : JVal} {r : List Char},
      numeroJson cs = some (v, r) → ∃ s, cs = s ++ r ∧ SegmentoSeguro s := by
  intro cs v r h
  unfold numeroJson at h
  rcases cs with _ | ⟨c0, cs1⟩
  · dsimp only at h
    exact (Option.noConfusion h)
  dsimp only at h
  by_cases hneg : (c0 == guion) = true
  · simp only [hneg, if_true] at h
    rcases cs1 with _ | ⟨c1, cs2⟩
    · dsimp only at h
      exact (Option.noConfusion h)
    dsimp only at h
    have hc0 : c0 = guion := eq_of_beq hneg
    by_cases h0 : (c1 == '0') = true
    · rw [if_pos h0] at h
      obtain ⟨s, hs, hsnl⟩ := despues_descomp h
      refine ⟨c0 :: c1 :: s, by simpa using congrArg (fun l => c0 :: c1 :: l) hs, ?_⟩
      refine segmento_token (by rw [hc0]; decide) (by rw [hc0]; decide) ?_
      intro hm
      rcases List.mem_cons.mp hm with he | hm
      · exact absurd (hc0 ▸ he).symm (by decide)
      rcases List.mem_cons.mp hm with he | hm
      · exact absurd ((eq_of_beq h0) ▸ he).symm (by decide)
      · exact hsnl hm
    · rw [if_neg h0] at h
      by_cases hd : esDigito c1 = true
      · rw [if_pos hd] at h
        obtain ⟨s, hs, hsnl⟩ := despues_descomp h
        obtain ⟨happ, hdig⟩ := tomar_descomp cs2
        refine ⟨c0 :: c1 :: (tomarDigitos cs2).1 ++ s, ?_, ?_⟩
        · conv_lhs => rw [← happ]
          simp [hs, List.append_assoc]
        · have : c0 :: c1 :: (tomarDigitos cs2).1 ++ s = c0 :: (c1 :: (tomarDigitos cs2).1 ++ s) := by
            simp
          rw [this]
          refine segmento_token (by rw [hc0]; decide) (by rw [hc0]; decide) ?_
          intro hm
          rcases List.mem_cons.mp hm with he | hm
          · exact absurd (hc0 ▸ he).symm (by decide)
          rcases List.mem_cons.mp hm with he | hm
          · exact (esDigito_no_nl hd) he.symm
          rcases List.mem_append.mp hm with hm | hm
          · exact (esDigito_no_nl (hdig nl hm)) rfl
          · exact hsnl hm
      · rw [if_neg hd] at h
        exact (Option.noConfusion h)
  · simp only [hneg, Bool.false_eq_true, if_false] at h
    by_cases h0 : (c0 == '0') = true
    · rw [if_pos h0] at h
      obtain ⟨s, hs, hsnl⟩ := despues_descomp h
      refine ⟨c0 :: s, by simpa using congrArg (c0 :: ·) hs, ?_⟩
      refine segmento_token (by rw [eq_of_beq h0]; decide) (by rw [eq_of_beq h0]; decide) ?_
      intro hm
      rcases List.mem_cons.mp hm with he | hm
      · exact absurd ((eq_of_beq h0) ▸ he).symm (by decide)
      · exact hsnl hm
    · rw [if_neg h0] at h
      by_cases hd : esDigito c0 = true
      · rw [if_pos hd] at h
        obtain ⟨s, hs, hsnl⟩ := despues_descomp h
        obtain ⟨happ, hdig⟩ := tomar_descomp cs1
        refine ⟨c0 :: (tomarDigitos cs1).1 ++ s, ?_, ?_⟩
        · conv_lhs => rw [← happ]
          simp [hs, List.append_assoc]
        · have heq : c0 :: (tomarDigitos cs1).1 ++ s = c0 :: ((tomarDigitos cs1).1 ++ s) := by
            simp
          rw [heq]
          have hnw : esEspacioPy c0 = false := by
            rcases Nat.lt_or_ge c0.toNat 128 with hlt | hge
            · revert hd
              revert hlt
              exact fun hlt hd => by
                by_contra hesp
                simp only [Bool.not_eq_false] at hesp
                have h4 : c0 = ' ' ∨ c0 = '\t' ∨ c0 = nl ∨ c0 = '\r' ∨
                    c0 = Char.ofNat 11 ∨ c0 = Char.ofNat 12 := by
                  simpa [esEspacioPy, or_assoc] using hesp
                rcases h4 with h5 | h5 | h5 | h5 | h5 | h5 <;> subst h5 <;> exact absurd hd (by decide)
            · by_contra hesp
              simp only [Bool.not_eq_false] at hesp
              have h4 : c0 = ' ' ∨ c0 = '\t' ∨ c0 = nl ∨ c0 = '\r' ∨
                  c0 = Char.ofNat 11 ∨ c0 = Char.ofNat 12 := by
                simpa [esEspacioPy, or_assoc] using hesp
              rcases h4 with h5 | h5 | h5 | h5 | h5 | h5 <;> subst h5 <;> exact absurd hd (by decide)
          refine segmento_token hnw ?_ ?_
          · intro he
            subst he
            exact absurd hd (by decide)
          · intro hm
            rcases List.mem_cons.mp hm with he | hm
            · exact (esDigito_no_nl hd) he.symm
            rcases List.mem_append.mp hm with hm | hm
            · exact (esDigito_no_nl (hdig nl hm)) rfl
            · exact hsnl hm
      · rw [if_neg hd] at h
        exact (Option.noConfusion h)

theorem empieza_descomp :
    ∀ {p cs : List Char}, empiezaCon p cs = true → ∃ rest, cs = p ++ rest := by
  intro p
  induction p with
  | nil => exact fun {cs} _ => ⟨cs, rfl⟩
  | cons x ps ih =>
    intro cs h
    rcases cs with _ | ⟨c, cs1⟩
    · exact absurd h (by simp [empiezaCon])
    · rw [empiezaCon] at h
      obtain ⟨hx, hrest⟩ := Bool.and_eq_true_iff.mp h
      obtain ⟨rest, hr⟩ := ih hrest
      exact ⟨rest, by rw [List.cons_append, ← hr, eq_of_beq hx]⟩

theorem esperarLit_descomp :
    ∀ {lit cs r : List Char}, esperarLit lit cs = some r → cs = lit ++ r := by
  intro lit cs r h
  unfold esperarLit at h
  by_cases he : empiezaCon lit cs = true
  · rw [if_pos he] at h
    simp only [Option.some.injEq] at h
    obtain ⟨rest, hr⟩ := empieza_descomp he
    subst hr
    rw [← h, List.drop_left]
  · rw [if_neg he] at h
    exact (Option.noConfusion h)

theorem segmento_un_token {c : Char} (h1 : esEspacioPy c = false) (h2 : c ≠ bq) :
    SegmentoSeguro [c] :=
  segmento_token h1 h2 (by
    intro hm
    simp only [List.mem_cons, List.not_mem_nil, or_false] at hm
    subst hm
    exact absurd h1 (by decide))

theorem parser_seguro :
    ∀ fuel : Nat,
      (∀ cs v r, valorJson fuel cs = some (v, r) →
        ∃ s, cs = s ++ r ∧ SegmentoSeguro s) ∧
      (∀ cs v r, miembrosObjeto fuel cs = some (v, r) →
        ∃ s, cs = s ++ r ∧ SegmentoSeguro s) ∧
      (∀ acc cs v r, bucleObjeto fuel cs acc = some (v, r) →
        ∃ s, cs = s ++ r ∧ SegmentoSeguro s) ∧
      (∀ cs v r, elementosLista fuel cs = some (v, r) →
        ∃ s, cs = s ++ r ∧ SegmentoSeguro s) ∧
      (∀ acc cs v r, bucleLista fuel cs acc = some (v, r) →
        ∃ s, cs = s ++ r ∧ SegmentoSeguro s) := by
  intro fuel
  induction fuel with
  | zero =>
    refine ⟨?_, ?_, ?_, ?_, ?_⟩
    · intro cs v r h
      rw [valorJson] at h
      exact (Option.noConfusion h)
    · intro cs v r h
      rw [miembrosObjeto] at h
      exact (Option.noConfusion h)
    · intro acc cs v r h
      rw [bucleObjeto] at h
      exact (Option.noConfusion h)
    · intro cs v r h
      rw [elementosLista] at h
      exact (Option.noConfusion h)
    · intro acc cs v r h
      rw [bucleLista] at h
      exact (Option.noConfusion h)
  | succ m ih =>
    obtain ⟨ihV, ihM, ihO, ihE, ihL⟩ := ih
    have pasoValor : ∀ cs v r, valorJson (m + 1) cs = some (v, r) →
        ∃ s, cs = s ++ r ∧ SegmentoSeguro s := by
      intro cs v r h
      rcases cs with _ | ⟨c, cs2⟩
      · rw [valorJson] at h
        exact (Option.noConfusion h)
      rw [valorJson] at h
      by_cases hq : (c == '"') = true
      · simp only [hq, if_true] at h
        rcases hC : cuerpoCadena (cs2.length + 1) cs2 with _ | ⟨content, r0⟩ <;> rw [hC] at h
        · exact (Option.noConfusion h)
        simp only [Option.map_some', Option.some.injEq, Prod.mk.injEq] at h
        obtain ⟨-, hr⟩ := h
        subst hr
        obtain ⟨s0, hs0, hs0nl⟩ := cuerpo_descomp (cs2.length + 1) cs2 hC
        have hc : c = '"' := eq_of_beq hq
        subst hc
        refine ⟨'"' :: s0, by simpa using congrArg ('"' :: ·) hs0, ?_⟩
        refine segmento_token (by decide) (by decide) ?_
        intro hm
        rcases List.mem_cons.mp hm with he | hm
        · exact absurd he.symm (by decide)
        · exact hs0nl hm
      · simp only [hq, Bool.false_eq_true, if_false] at h
        by_cases hob : (c == llaveAbre) = true
        · simp only [hob, if_true] at h
          obtain ⟨s1, hs1, hseg1⟩ := ihM (saltarEspacios cs2) v r h
          obtain ⟨w, hw, hws⟩ := saltar_descomp cs2
          have hc : c = llaveAbre := eq_of_beq hob
          subst hc
          refine ⟨llaveAbre :: (w ++ s1), ?_, ?_⟩
          · rw [List.cons_append, hw, hs1, List.append_assoc]
          · exact segmento_append (segmento_un_token (by decide) (by decide))
              (segmento_append (segmento_saltado hws) hseg1)
        · simp only [hob, Bool.false_eq_true, if_false] at h
          by_cases hcb : (c == '[') = true
          · simp only [hcb, if_true] at h
            obtain ⟨s1, hs1, hseg1⟩ := ihE (saltarEspacios cs2) v r h
            obtain ⟨w, hw, hws⟩ := saltar_descomp cs2
            have hc : c = '[' := eq_of_beq hcb
            subst hc
            refine ⟨'[' :: (w ++ s1), ?_, ?_⟩
            · rw [List.cons_append, hw, hs1, List.append_assoc]
            · exact segmento_append (segmento_un_token (by decide) (by decide))
                (segmento_append (segmento_saltado hws) hseg1)
          · simp only [hcb, Bool.false_eq_true, if_false] at h
            by_cases ht : (c == 't') = true
            · simp only [ht, if_true] at h
              rcases hL : esperarLit (("rue").data) cs2 with _ | r0 <;> rw [hL] at h
              · exact (Option.noConfusion h)
              simp only [Option.map_some', Option.some.injEq, Prod.mk.injEq] at h
              obtain ⟨-, hr⟩ := h
              subst hr
              have hc : c = 't' := eq_of_beq ht
              subst hc
              refine ⟨'t' :: ("rue").data, ?_, ?_⟩
              · rw [List.cons_append, esperarLit_descomp hL]
              · exact segmento_token (by decide) (by decide) (by decide)
            · simp only [ht, Bool.false_eq_true, if_false] at h
              by_cases hf : (c == 'f') = true
              · simp only [hf, if_true] at h
                rcases hL : esperarLit (("alse").data) cs2 with _ | r0 <;> rw [hL] at h
                · exact (Option.noConfusion h)
                simp only [Option.map_some', Option.some.injEq, Prod.mk.injEq] at h
                obtain ⟨-, hr⟩ := h
                subst hr
                have hc : c = 'f' := eq_of_beq hf
                subst hc
                refine ⟨'f' :: ("alse").data, ?_, ?_⟩
                · rw [List.cons_append, esperarLit_descomp hL]
                · exact segmento_token (by decide) (by decide) (by decide)
              · simp only [hf, Bool.false_eq_true, if_false] at h
                by_cases hn : (c == 'n') = true
                · simp only [hn, if_true] at h
                  rcases hL : esperarLit (("ull").data) cs2 with _ | r0 <;> rw [hL] at h
                  · exact (Option.noConfusion h)
                  simp only [Option.map_some', Option.some.injEq, Prod.mk.injEq] at h
                  obtain ⟨-, hr⟩ := h
                  subst hr
                  have hc : c = 'n' := eq_of_beq hn
                  subst hc
                  refine ⟨'n' :: ("ull").data, ?_, ?_⟩
                  · rw [List.cons_append, esperarLit_descomp hL]
                  · exact segmento_token (by decide) (by decide) (by decide)
                · simp only [hn, Bool.false_eq_true, if_false] at h
                  by_cases hN : (c == 'N') = true
                  · simp only [hN, if_true] at h
                    rcases hL : esperarLit (("aN").data) cs2 with _ | r0 <;> rw [hL] at h
                    · exact (Option.noConfusion h)
                    simp only [Option.map_some', Option.some.injEq, Prod.mk.injEq] at h
                    obtain ⟨-, hr⟩ := h
                    subst hr
                    have hc : c = 'N' := eq_of_beq hN
                    subst hc
                    refine ⟨'N' :: ("aN").data, ?_, ?_⟩
                    · rw [List.cons_append, esperarLit_descomp hL]
                    · exact segmento_token (by decide) (by decide) (by decide)
                  · simp only [hN, Bool.false_eq_true, if_false] at h
                    by_cases hI : (c == 'I') = true
                    · simp only [hI, if_true] at h
                      rcases hL : esperarLit (("nfinity").data) cs2 with _ | r0 <;> rw [hL] at h
                      · exact (Option.noConfusion h)
                      simp only [Option.map_some', Option.some.injEq, Prod.mk.injEq] at h
                      obtain ⟨-, hr⟩ := h
                      subst hr
                      have hc : c = 'I' := eq_of_beq hI
                      subst hc
                      refine ⟨'I' :: ("nfinity").data, ?_, ?_⟩
                      · rw [List.cons_append, esperarLit_descomp hL]
                      · exact segmento_token (by decide) (by decide) (by decide)
                    · simp only [hI, Bool.false_eq_true, if_false] at h
                      by_cases hInf : (c == guion && empiezaCon (("Infinity").data) cs2) = true
                      · simp only [hInf, if_true] at h
                        simp only [Option.some.injEq, Prod.mk.injEq] at h
                        obtain ⟨-, hr⟩ := h
                        subst hr
                        obtain ⟨hg, hemp⟩ := Bool.and_eq_true_iff.mp hInf
                        have hc : c = guion := eq_of_beq hg
                        subst hc
                        obtain ⟨rest, hrest⟩ := empieza_descomp hemp
                        refine ⟨guion :: ("Infinity").data, ?_, ?_⟩
                        · rw [List.cons_append]
                          rw [hrest,
                            show (8 : Nat) = (("Infinity").data).length from rfl,
                            List.drop_left]
                        · exact segmento_token (by decide) (by decide) (by decide)
                      · simp only [hInf, Bool.false_eq_true, if_false] at h
                        by_cases hNum : (c == guion || esDigito c) = true
                        · simp only [hNum, if_true] at h
                          exact numero_descomp h
                        · simp only [hNum, Bool.false_eq_true, if_false] at h
                          exact (Option.noConfusion h)
    refine ⟨pasoValor, ?_, ?_, ?_, ?_⟩
    · -- miembrosObjeto
      intro cs v r h
      rcases cs with _ | ⟨c, cs2⟩
      · rw [miembrosObjeto] at h
        exact (Option.noConfusion h)
      rw [miembrosObjeto] at h
      by_cases hcr : (c == llaveCierra) = true
      · simp only [hcr, if_true] at h
        simp only [Option.some.injEq, Prod.mk.injEq] at h
        obtain ⟨-, hr⟩ := h
        subst hr
        have hc : c = llaveCierra := eq_of_beq hcr
        subst hc
        exact ⟨[llaveCierra], rfl, segmento_un_token (by decide) (by decide)⟩
      · simp only [hcr, Bool.false_eq_true, if_false] at h
        exact ihO [] (c :: cs2) v r h
    · -- bucleObjeto
      intro acc cs v r h
      rcases cs with _ | ⟨c, cs2⟩
      · rw [bucleObjeto] at h
        exact (Option.noConfusion h)
      rw [bucleObjeto] at h
      by_cases hq : (c == '"') = true
      · simp only [hq, if_true] at h
        rcases hC : cuerpoCadena (cs2.length + 1) cs2 with _ | ⟨k, r1⟩ <;> rw [hC] at h
        · exact (Option.noConfusion h)
        dsimp only at h
        obtain ⟨s0, hs0, hs0nl⟩ := cuerpo_descomp (cs2.length + 1) cs2 hC
        have hkey : SegmentoSeguro (c :: s0) := by
          have hc : c = '"' := eq_of_beq hq
          subst hc
          refine segmento_token (by decide) (by decide) ?_
          intro hm
          rcases List.mem_cons.mp hm with he | hm
          · exact absurd he.symm (by decide)
          · exact hs0nl hm
        rcases hW1 : saltarEspacios r1 with _ | ⟨c2, r2⟩ <;> rw [hW1] at h
        · exact (Option.noConfusion h)
        obtain ⟨w1, hw1, hw1s⟩ := saltar_descomp r1
        rw [hW1] at hw1
        by_cases hcol : (c2 == ':') = true
        · simp only [hcol, if_true] at h
          rcases hV : valorJson m (saltarEspacios r2) with _ | ⟨v1, r3⟩ <;> rw [hV] at h
          · exact (Option.noConfusion h)
          dsimp only at h
          obtain ⟨sE, hsE, hsegE⟩ := ihV (saltarEspacios r2) v1 r3 hV
          obtain ⟨w2, hw2, hw2s⟩ := saltar_descomp r2
          rcases hW3 : saltarEspacios r3 with _ | ⟨c3, r4⟩ <;> rw [hW3] at h
          · exact (Option.noConfusion h)
          obtain ⟨w3, hw3, hw3s⟩ := saltar_descomp r3
          rw [hW3] at hw3
          have hc2 : c2 = ':' := eq_of_beq hcol
          subst hc2
          by_cases hcoma : (c3 == ',') = true
          · simp only [hcoma, if_true] at h
            obtain ⟨sR, hsR, hsegR⟩ := ihO (acc ++ [(k, v1)]) (saltarEspacios r4) v r h
            obtain ⟨w4, hw4, hw4s⟩ := saltar_descomp r4
            have hc3 : c3 = ',' := eq_of_beq hcoma
            subst hc3
            refine ⟨(c :: s0) ++ (w1 ++ ([':'] ++ (w2 ++ (sE ++ (w3 ++ ([','] ++
              (w4 ++ sR))))))), ?_, ?_⟩
            · have e1 : cs2 = s0 ++ r1 := hs0
              have e2 : r1 = w1 ++ (':' :: r2) := hw1
              have e3 : r2 = w2 ++ (sE ++ r3) := by rw [hw2, hsE]
              have e4 : r3 = w3 ++ (',' :: r4) := hw3
              have e5 : r4 = w4 ++ (sR ++ r) := by rw [hw4, hsR]
              rw [List.cons_append]
              rw [e1, e2, e3, e4, e5]
              simp [List.append_assoc]
            · exact segmento_append hkey (segmento_append (segmento_saltado hw1s)
                (segmento_append (segmento_un_token (by decide) (by decide))
                  (segmento_append (segmento_saltado hw2s)
                    (segmento_append hsegE (segmento_append (segmento_saltado hw3s)
                      (segmento_append (segmento_un_token (by decide) (by decide))
                        (segmento_append (segmento_saltado hw4s) hsegR)))))))
          · simp only [hcoma, Bool.false_eq_true, if_false] at h
            by_cases hcier : (c3 == llaveCierra) = true
            · simp only [hcier, if_true] at h
              simp only [Option.some.injEq, Prod.mk.injEq] at h
              obtain ⟨-, hr⟩ := h
              subst hr
              have hc3 : c3 = llaveCierra := eq_of_beq hcier
              subst hc3
              refine ⟨(c :: s0) ++ (w1 ++ ([':'] ++ (w2 ++ (sE ++ (w3 ++
                [llaveCierra]))))), ?_, ?_⟩
              · have e1 : cs2 = s0 ++ r1 := hs0
                have e2 : r1 = w1 ++ (':' :: r2) := hw1
                have e3 : r2 = w2 ++ (sE ++ r3) := by rw [hw2, hsE]
                have e4 : r3 = w3 ++ (llaveCierra :: r4) := hw3
                rw [List.cons_append]
                rw [e1, e2, e3, e4]
                simp [List.append_assoc]
              · exact segmento_append hkey (segmento_append (segmento_saltado hw1s)
                  (segmento_append (segmento_un_token (by decide) (by decide))
                    (segmento_append (segmento_saltado hw2s)
                      (segmento_append hsegE (segmento_append (segmento_saltado hw3s)
                        (segmento_un_token (by decide) (by decide)))))))
            · simp only [hcier, Bool.false_eq_true, if_false] at h
              exact (Option.noConfusion h)
        · simp only [hcol, Bool.false_eq_true, if_false] at h
          exact (Option.noConfusion h)
      · simp only [hq, Bool.false_eq_true, if_false] at h
        exact (Option.noConfusion h)
    · -- elementosLista
      intro cs v r h
      rcases cs with _ | ⟨c, cs2⟩
      · rw [elementosLista] at h
        exact (Option.noConfusion h)
      rw [elementosLista] at h
      by_cases hcr : (c == ']') = true
      · simp only [hcr, if_true] at h
        simp only [Option.some.injEq, Prod.mk.injEq] at h
        obtain ⟨-, hr⟩ := h
        subst hr
        have hc : c = ']' := eq_of_beq hcr
        subst hc
        exact ⟨[']'], rfl, segmento_un_token (by decide) (by decide)⟩
      · simp only [hcr, Bool.false_eq_true, if_false] at h
        exact ihL [] (c :: cs2) v r h
    · -- bucleLista
      intro acc cs v r h
      rw [bucleLista] at h
      rcases hV : valorJson m cs with _ | ⟨v1, r1⟩ <;> rw [hV] at h
      · exact (Option.noConfusion h)
      dsimp only at h
      obtain ⟨sE, hsE, hsegE⟩ := ihV cs v1 r1 hV
      rcases hW1 : saltarEspacios r1 with _ | ⟨c2, r2⟩ <;> rw [hW1] at h
      · exact (Option.noConfusion h)
      obtain ⟨w1, hw1, hw1s⟩ := saltar_descomp r1
      rw [hW1] at hw1
      by_cases hcoma : (c2 == ',') = true
      · simp only [hcoma, if_true] at h
        obtain ⟨sR, hsR, hsegR⟩ := ihL (acc ++ [v1]) (saltarEspacios r2) v r h
        obtain ⟨w2, hw2, hw2s⟩ := saltar_descomp r2
        have hc2 : c2 = ',' := eq_of_beq hcoma
        subst hc2
        refine ⟨sE ++ (w1 ++ ([','] ++ (w2 ++ sR))), ?_, ?_⟩
        · have e2 : r1 = w1 ++ (',' :: r2) := hw1
          have e3 : r2 = w2 ++ (sR ++ r) := by rw [hw2, hsR]
          rw [hsE, e2, e3]
          simp [List.append_assoc]
        · exact segmento_append hsegE (segmento_append (segmento_saltado hw1s)
            (segmento_append (segmento_un_token (by decide) (by decide))
              (segmento_append (segmento_saltado hw2s) hsegR)))
      · simp only [hcoma, Bool.false_eq_true, if_false] at h
        by_cases hcier : (c2 == ']') = true
        · simp only [hcier, if_true] at h
          simp only [Option.some.injEq, Prod.mk.injEq] at h
          obtain ⟨-, hr⟩ := h
          subst hr
          have hc2 : c2 = ']' := eq_of_beq hcier
          subst hc2
          refine ⟨sE ++ (w1 ++ [']']), ?_, ?_⟩
          · have e2 : r1 = w1 ++ (']' :: r2) := hw1
            rw [hsE, e2]
            simp [List.append_assoc]
          · exact segmento_append hsegE (segmento_append (segmento_saltado hw1s)
              (segmento_un_token (by decide) (by decide)))
        · simp only [hcier, Bool.false_eq_true, if_false] at h
          exact (Option.noConfusion h)

/-- A fully parsed text is line-safe: it splits into leading whitespace,
the consumed value segment, and trailing whitespace. -/
theorem analizar_seguro :
    ∀ {t : List Char} {v : JVal}, analizarJson t = some v → textoSeguro t = true := by
  intro t v h
  unfold analizarJson at h
  rcases hV : valorJson (4 * t.length + 4) (saltarEspacios t) with _ | ⟨v0, resto⟩ <;>
    rw [hV] at h
  · exact (Option.noConfusion h)
  dsimp only at h
  by_cases hE : (saltarEspacios resto).isEmpty = true
  · have hresto : saltarEspacios resto = [] := by
      simpa using hE
    obtain ⟨s1, hs1, hseg1⟩ :=
      (parser_seguro (4 * t.length + 4)).1 (saltarEspacios t) v0 resto hV
    obtain ⟨w0, hw0, hw0s⟩ := saltar_descomp t
    obtain ⟨w2, hw2, hw2s⟩ := saltar_descomp resto
    rw [hresto, List.append_nil] at hw2
    have hseg : SegmentoSeguro t := by
      rw [hw0, hs1, hw2]
      exact segmento_append (segmento_saltado hw0s)
        (segmento_append hseg1 (segmento_saltado hw2s))
    exact hseg false
  · rw [if_neg hE] at h
    exact (Option.noConfusion h)

theorem partir_cons_sep (sep : Char) (cs : List Char) :
    partir sep (sep :: cs) = [] :: partir sep cs := by
  rw [partir]
  simp

theorem partir_cons_no {sep c : Char} (h : c ≠ sep) (cs : List Char) :
    partir sep (c :: cs) = (c :: (partir sep cs).headD []) :: (partir sep cs).tail := by
  rw [partir]
  simp [h]

theorem partir_append_sep (sep : Char) :
    ∀ x y : List Char, partir sep (x ++ sep :: y) = partir sep x ++ partir sep y := by
  intro x y
  induction x with
  | nil =>
    rw [List.nil_append, partir_cons_sep]
    rfl
  | cons c x' ih =>
    by_cases hc : c = sep
    · subst hc
      rw [List.cons_append, partir_cons_sep, ih, partir_cons_sep]
      rfl
    · obtain ⟨h1, t1, hct⟩ := List.exists_cons_of_ne_nil (partir_ne_nil sep x')
      rw [List.cons_append, partir_cons_no hc, partir_cons_no hc, ih, hct]
      simp

theorem partir_no_sep (sep : Char) : ∀ x : List Char, sep ∉ x → partir sep x = [x] := by
  intro x
  induction x with
  | nil => intro _; rfl
  | cons c x' ih =>
    intro h
    have hc : c ≠ sep := fun he => h (he ▸ List.mem_cons_self c x')
    have hx : sep ∉ x' := fun hm => h (List.mem_cons_of_mem c hm)
    rw [partir]
    simp only [if_neg (fun he => hc he), ih hx]
    rfl

theorem intercalar_cons (sep : List Char) (c : Char) (l : List Char) :
    ∀ t : List (List Char), intercalar sep ((c :: l) :: t) = c :: intercalar sep (l :: t) := by
  intro t
  cases t <;> simp [intercalar]

theorem unLineas_lineas : ∀ t : List Char, unLineas (lineas t) = t := by
  intro t
  induction t with
  | nil => rfl
  | cons c t' ih =>
    obtain ⟨h1, t1, hct⟩ := List.exists_cons_of_ne_nil (partir_ne_nil nl t')
    by_cases hc : c = nl
    · subst hc
      show intercalar [nl] (partir nl (nl :: t')) = nl :: t'
      rw [partir, if_pos rfl]
      show intercalar [nl] ([] :: partir nl t') = nl :: t'
      rw [hct]
      show [] ++ [nl] ++ intercalar [nl] (h1 :: t1) = nl :: t'
      have : intercalar [nl] (h1 :: t1) = t' := by rw [← hct]; exact ih
      rw [this]
      rfl
    · show intercalar [nl] (partir nl (c :: t')) = c :: t'
      rw [partir, if_neg (fun he => hc he)]
      rw [hct]
      show intercalar [nl] ((c :: h1) :: t1) = c :: t'
      rw [intercalar_cons]
      have : intercalar [nl] (h1 :: t1) = t' := by rw [← hct]; exact ih
      rw [this]

/-- The markdown fence wrapper around a reply: a fence line, the text, and
a closing fence line. -/
def conVallas (t : List Char) : List Char := valla ++ nl :: (t ++ nl :: valla)

theorem empiezaCon_self : ∀ p rest : List Char, empiezaCon p (p ++ rest) = true := by
  intro p rest
  induction p with
  | nil => rfl
  | cons x ps ih => simp [empiezaCon, ih]

theorem pstrip_conVallas (t : List Char) : pstrip (conVallas t) = conVallas t := by
  unfold pstrip
  have h1 : (conVallas t).dropWhile esEspacioPy = conVallas t := by
    simp [conVallas, valla, List.dropWhile_cons, esEspacioPy_bq]
  rw [h1]
  have hsnoc : conVallas t = (valla ++ nl :: (t ++ [nl, bq, bq])) ++ [bq] := by
    show valla ++ nl :: (t ++ nl :: valla) = _
    simp [valla, List.append_assoc]
  have h2 : (conVallas t).reverse.dropWhile esEspacioPy = (conVallas t).reverse := by
    rw [hsnoc, List.reverse_append]
    show List.dropWhile esEspacioPy (bq :: _) = _
    simp [List.dropWhile, esEspacioPy_bq]
  rw [h2, List.reverse_reverse]

theorem lineas_conVallas (t : List Char) :
    lineas (conVallas t) = valla :: (lineas t ++ [valla]) := by
  show partir nl (valla ++ nl :: (t ++ nl :: valla)) = _
  rw [partir_append_sep nl valla (t ++ nl :: valla),
    partir_append_sep nl t valla,
    partir_no_sep nl valla (by decide)]
  rfl

theorem filtro_conVallas (t : List Char) (hseg : textoSeguro t = true) :
    (lineas (conVallas t)).filter (fun l => !(empiezaCon valla (pstrip l))) = lineas t := by
  rw [lineas_conVallas]
  have hv : (!(empiezaCon valla (pstrip valla))) = false := by decide
  simp only [List.filter_cons, List.filter_append, List.filter_nil, hv,
    Bool.false_eq_true, if_false, List.append_nil]
  apply List.filter_eq_self.mpr
  intro l hl
  have hlin := (puente t).2 hseg l hl
  simp [hlin]

theorem limpiar_conVallas (t : List Char) (hseg : textoSeguro t = true) :
    limpiar (conVallas t) = pstrip t := by
  unfold limpiar
  rw [pstrip_conVallas]
  rw [if_pos (by exact empiezaCon_self valla (nl :: (t ++ nl :: valla)))]
  rw [filtro_conVallas t hseg, unLineas_lineas]

theorem limpiar_sin_valla (t : List Char) (hseg : textoSeguro t = true) :
    limpiar t = pstrip t := by
  unfold limpiar
  rw [if_neg (by simp [primer_noespacio t hseg])]

/-! ### Helper facts for the claim theorems -/

theorem empiezaCon_append {p s : List Char} (t : List Char) (h : empiezaCon p s = true) :
    empiezaCon p (s ++ t) = true := by
  induction p generalizing s with
  | nil => rfl
  | cons x ps ih =>
    rcases s with _ | ⟨c, s1⟩
    · exact absurd h (by simp [empiezaCon])
    · rw [empiezaCon] at h
      obtain ⟨hx, hrest⟩ := Bool.and_eq_true_iff.mp h
      rw [List.cons_append, empiezaCon, hx, ih hrest]
      rfl

theorem empiezaCon_refl (p : List Char) : empiezaCon p p = true := by
  have h := empiezaCon_self p []
  rwa [List.append_nil] at h

theorem esInfijo_nil (s : List Char) : esInfijo [] s = true := by
  cases s <;> rfl

theorem esInfijo_de_empieza {p s : List Char} (h : empiezaCon p s = true) :
    esInfijo p s = true := by
  cases s with
  | nil =>
    rw [esInfijo]
    exact h
  | cons c cs =>
    rw [esInfijo, h]
    rfl

theorem esInfijo_cons {p s : List Char} (x : Char) (h : esInfijo p s = true) :
    esInfijo p (x :: s) = true := by
  rw [esInfijo, h]
  simp

theorem esInfijo_self (p : List Char) : esInfijo p p = true :=
  esInfijo_de_empieza (empiezaCon_refl p)

theorem esInfijo_append_izq {p t : List Char} (s : List Char) (h : esInfijo p t = true) :
    esInfijo p (s ++ t) = true := by
  induction s with
  | nil => exact h
  | cons c cs ih => exact esInfijo_cons c ih

theorem esInfijo_append_der {p s : List Char} (t : List Char) (h : esInfijo p s = true) :
    esInfijo p (s ++ t) = true := by
  induction s generalizing p with
  | nil =>
    rw [esInfijo] at h
    have hp : p = [] := by
      cases p with
      | nil => rfl
      | cons x ps => exact absurd h (by simp [empiezaCon])
    subst hp
    exact esInfijo_nil t
  | cons c cs ih =>
    rw [esInfijo] at h
    rcases Bool.or_eq_true_iff.mp h with he | hm
    · exact esInfijo_de_empieza (empiezaCon_append t he)
    · exact esInfijo_cons c (ih hm)

theorem esInfijo_en_entrecomillado (c : List Char) :
    esInfijo c (comilla :: (c ++ [comilla])) = true :=
  esInfijo_cons comilla (esInfijo_de_empieza (empiezaCon_self c [comilla]))

theorem esInfijo_en_intercalado (sep : List Char) :
    ∀ (xs : List (List Char)) (c : List Char), c ∈ xs →
      esInfijo c (intercalar sep (xs.map (fun s => comilla :: (s ++ [comilla])))) = true := by
  intro xs
  induction xs with
  | nil => intro c hc; simp at hc
  | cons x xs' ih =>
    intro c hc
    rcases List.mem_cons.mp hc with he | hm
    · subst he
      cases xs' with
      | nil => exact esInfijo_en_entrecomillado c
      | cons y ys =>
        show esInfijo c ((comilla :: (c ++ [comilla])) ++ sep ++ _) = true
        exact esInfijo_append_der _
          (esInfijo_append_der _ (esInfijo_en_entrecomillado c))
    · cases xs' with
      | nil => simp at hm
      | cons y ys =>
        show esInfijo c ((comilla :: (x ++ [comilla])) ++ sep ++ _) = true
        exact esInfijo_append_izq _ (ih c hm)

theorem esInfijo_en_repr {c : List Char} {xs : List (List Char)} (h : c ∈ xs) :
    esInfijo c (reprConjunto xs) = true := by
  unfold reprConjunto
  exact esInfijo_cons llaveAbre
    (esInfijo_append_der _ (esInfijo_en_intercalado (((", ")).data) xs c h))

theorem esInfijo_en_msgFaltantes {c : List Char} {falt : List (List Char)} (h : c ∈ falt) :
    esInfijo c (msgFaltantes falt) = true :=
  esInfijo_append_izq _ (esInfijo_en_repr h)

theorem mem_insertarOrden (e a : Entrada) :
    ∀ l : List Entrada, (a ∈ insertarOrden e l ↔ a = e ∨ a ∈ l) := by
  intro l
  induction l with
  | nil => simp [insertarOrden]
  | cons x xs ih =>
    unfold insertarOrden
    by_cases h : menorLex e.nombre x.nombre = true
    · simp [h]
    · simp only [h, Bool.false_eq_true, if_false, List.mem_cons, ih]
      tauto

theorem mem_ordenar : ∀ (l : List Entrada) (a : Entrada), (a ∈ ordenar l ↔ a ∈ l) := by
  intro l
  induction l with
  | nil => intro a; simp [ordenar]
  | cons x xs ih =>
    intro a
    unfold ordenar
    rw [mem_insertarOrden, ih]
    simp

/-- Once no required field is missing, `validar_json`'s dict stage hands
the object to the field checks unchanged. -/
theorem validar_objeto_sin_faltantes {campos : List (List Char × JVal)}
    (h : camposFaltantes campos = []) :
    validar_datos (JVal.objeto campos) = revisarCampos campos := by
  show validarDict (JVal.objeto campos) = _
  unfold validarDict
  dsimp only
  rw [h]
  rfl

theorem validar_objeto_faltantes {campos : List (List Char × JVal)}
    (h : camposFaltantes campos ≠ []) :
    validar_datos (JVal.objeto campos) = .error (msgFaltantes (camposFaltantes campos)) := by
  rcases hc : camposFaltantes campos with _ | ⟨c, cs⟩
  · exact absurd hc h
  · show validarDict (JVal.objeto campos) = _
    unfold validarDict
    dsimp only
    rw [hc]
    rfl

/-! ### The claims -/

/-- The four required fields, populated as in the spec's missing-field
scenario: `customer_name`, `amount` and `date` present, `request_type`
absent (names per the source's Spanish schema). -/
def camposEjemplo : List (List Char × JVal) :=
  [(sNombre, .cadena (("Acme").data)), (sMonto, .entero 100),
   (sFecha, .cadena (("2024-01-15").data))]

/-- C5: the Schema Validator requires the field set
`{nombre_cliente, monto, fecha, tipo_solicitud}` to be a subset of the
object's keys — extra keys never trigger this error, and when nothing is
missing the validator proceeds to the field checks on the same object —
while any missing fields produce the `ValueError` of line 200, whose
message names each missing field; on the spec's example object lacking
`request_type`, the message names `tipo_solicitud`. -/
theorem c5_campos_requeridos :
    ∀ campos : List (List Char × JVal),
      (camposFaltantes campos = [] ↔
        ∀ c ∈ CAMPOS_REQUERIDOS, tieneClave campos c = true) ∧
      (camposFaltantes campos = [] →
        validar_datos (JVal.objeto campos) = revisarCampos campos) ∧
      (camposFaltantes campos ≠ [] →
        validar_datos (JVal.objeto campos) =
          .error (msgFaltantes (camposFaltantes campos)) ∧
        ∀ c ∈ camposFaltantes campos,
          esInfijo c (msgFaltantes (camposFaltantes campos)) = true) ∧
      (validar_datos (JVal.objeto camposEjemplo) = .error (msgFaltantes [sTipo]) ∧
        esInfijo sTipo (msgFaltantes [sTipo]) = true) := by
  intro campos
  refine ⟨?_, fun h => validar_objeto_sin_faltantes h, ?_, by exact ⟨rfl, rfl⟩⟩
  · unfold camposFaltantes
    rw [List.filter_eq_nil_iff]
    constructor
    · intro h c hc
      have := h c hc
      simpa using this
    · intro h c hc
      simp [h c hc]
  · intro h
    exact ⟨validar_objeto_faltantes h, fun c hc => esInfijo_en_msgFaltantes hc⟩

/-- The spec's well-formed complaint record (`customer_name = "X"`,
`amount = null`, `date = "2024-03-01"`, `request_type = "Queja"`). -/
def camposQueja : List (List Char × JVal) :=
  [(sNombre, .cadena (("X").data)), (sMonto, .nulo),
   (sFecha, .cadena (("2024-03-01").data)), (sTipo, .cadena sQueja)]

def registroQueja : JVal := .objeto camposQueja

/-- Witness for C5 at a concrete object with all four fields present. -/
theorem c5_campos_requeridos_testigo :
    validar_datos (JVal.objeto camposQueja) = revisarCampos camposQueja :=
  (c5_campos_requeridos camposQueja).2.1 rfl

/-- C6: a reply parsed to a JSON list is validated through its first
element (the remaining validation runs on that element) and an empty list
fails with the empty-list `ValueError` of line 190; the spec's
one-element list wrapping a well-formed record yields exactly that
record. -/
theorem c6_lista_respuestas :
    validar_datos (JVal.lista []) = .error msgListaVacia ∧
    (∀ (d : JVal) (resto : List JVal),
      validar_datos (JVal.lista (d :: resto)) = validarDict d) ∧
    validar_datos (JVal.lista [registroQueja]) = .ok registroQueja :=
  ⟨rfl, fun _ _ => rfl, rfl⟩

/-- A well-formed object except that `monto` is the boolean `true`. -/
def camposMontoBool : List (List Char × JVal) :=
  [(sNombre, .cadena (("Acme").data)), (sMonto, .booleano true),
   (sFecha, .cadena (("2024-01-15").data)), (sTipo, .cadena sVenta)]

/-- C2 counterexample: the claim states that a boolean `amount` always
fails with a ValidationError, but the validator accepts this object with
`monto = true` and returns it unchanged: Python's `bool` is a subclass of
`int`, so the check `isinstance(monto, (int, float))` at line 207
succeeds on booleans. -/
theorem c2_contraejemplo :
    validar_datos (JVal.objeto camposMontoBool) = .ok (JVal.objeto camposMontoBool) := rfl

/-- C2 (amended): for every candidate object reaching the `monto` check
(required fields present, `nombre_cliente` accepted), the amount is
accepted when it is null, numeric (int or float) or boolean — booleans
pass because `bool` subclasses `int` in Python — and validation fails
with the `ValueError` of line 208 exactly when the amount has any other
type, in particular when it is a string. -/
theorem c2_enmendado :
    ∀ campos : List (List Char × JVal),
      camposFaltantes campos = [] →
      revisarNombre campos = .ok () →
      (((jget campos sMonto = .nulo ∨ esNumericoPy (jget campos sMonto) = true) →
          validar_datos (JVal.objeto campos) =
            (do revisarFecha campos; revisarTipo campos; pure (JVal.objeto campos))) ∧
        (∀ b, esNumericoPy (JVal.booleano b) = true) ∧
        (∀ n, esNumericoPy (JVal.entero n) = true) ∧
        esNumericoPy JVal.flotante = true ∧
        (∀ s, esNumericoPy (JVal.cadena s) = false) ∧
        (∀ v, jget campos sMonto = v → v ≠ .nulo → esNumericoPy v = false →
          validar_datos (JVal.objeto campos) = .error (msgMonto v))) := by
  intro campos h1 h2
  refine ⟨?_, fun _ => rfl, fun _ => rfl, rfl, fun _ => rfl, ?_⟩
  · intro hm
    have hMonto : revisarMonto campos = .ok () := by
      unfold revisarMonto
      rcases hj : jget campos sMonto with _ | b | n | _ | s | xs | kvs
      · rfl
      · rfl
      · rfl
      · rfl
      · rcases hm with hnulo | hnum
        · rw [hj] at hnulo
          exact (JVal.noConfusion hnulo)
        · rw [hj] at hnum
          exact absurd hnum (by simp [esNumericoPy])
      · rcases hm with hnulo | hnum
        · rw [hj] at hnulo
          exact (JVal.noConfusion hnulo)
        · rw [hj] at hnum
          exact absurd hnum (by simp [esNumericoPy])
      · rcases hm with hnulo | hnum
        · rw [hj] at hnulo
          exact (JVal.noConfusion hnulo)
        · rw [hj] at hnum
          exact absurd hnum (by simp [esNumericoPy])
    rw [validar_objeto_sin_faltantes h1]
    unfold revisarCampos
    rw [h2, hMonto]
    rfl
  · intro v hj hnulo hnum
    have hMonto : revisarMonto campos = .error (msgMonto v) := by
      unfold revisarMonto
      rw [hj]
      rcases v with _ | b | n | _ | s | xs | kvs
      · exact absurd rfl hnulo
      · exact absurd hnum (by simp [esNumericoPy])
      · exact absurd hnum (by simp [esNumericoPy])
      · exact absurd hnum (by simp [esNumericoPy])
      · rfl
      · rfl
      · rfl
    rw [validar_objeto_sin_faltantes h1]
    unfold revisarCampos
    rw [h2, hMonto]
    rfl

/-- A well-formed object except that `monto` is the string `"12"`. -/
def camposMontoCadena : List (List Char × JVal) :=
  [(sNombre, .cadena (("Acme").data)), (sMonto, .cadena (("12").data)),
   (sFecha, .cadena (("2024-01-15").data)), (sTipo, .cadena sVenta)]

/-- A well-formed object whose `monto` is the integer 7. -/
def camposMontoEntero : List (List Char × JVal) :=
  [(sNombre, .cadena (("Acme").data)), (sMonto, .entero 7),
   (sFecha, .cadena (("2024-01-15").data)), (sTipo, .cadena sVenta)]

/-- Witness for C2 (amended) at a concrete object whose `monto` is a
string, and at one whose `monto` is an integer. -/
theorem c2_enmendado_testigo :
    validar_datos (JVal.objeto camposMontoCadena) =
      .error (msgMonto (.cadena (("12").data))) ∧
    validar_datos (JVal.objeto camposMontoEntero) =
      (do revisarFecha camposMontoEntero
          revisarTipo camposMontoEntero
          pure (JVal.objeto camposMontoEntero)) :=
  ⟨(c2_enmendado camposMontoCadena rfl rfl).2.2.2.2.2
      (.cadena (("12").data)) rfl (by simp) rfl,
    (c2_enmendado camposMontoEntero rfl rfl).1 (Or.inr rfl)⟩

/-- A well-formed object whose date `"2024-1-5"` has a one-digit month
and day. -/
def camposFechaCorta : List (List Char × JVal) :=
  [(sNombre, .cadena (("Acme").data)), (sMonto, .nulo),
   (sFecha, .cadena (("2024-1-5").data)), (sTipo, .cadena sVenta)]

/-- C4 counterexample: `"2024-1-5"` is not 4-digit-year/2-digit-month/
2-digit-day, yet the validator accepts the object: CPython `_strptime`
compiles `%m` to `1[0-2]|0[1-9]|[1-9]` and `%d` to
`3[01]|[12]\d|0[1-9]|[1-9]`, so one-digit months and days pass, contrary
to the claim's "accepted only when …  a 2-digit month and a 2-digit day". -/
theorem c4_contraejemplo :
    validar_datos (JVal.objeto camposFechaCorta) = .ok (JVal.objeto camposFechaCorta) := rfl

/-- C4 (amended): for every candidate object reaching the `fecha` check,
a string date is accepted exactly when `strptime("%Y-%m-%d")` succeeds —
an exactly-4-digit year, a 1- or 2-digit month, a 1- or 2-digit day,
hyphen-separated, denoting a real calendar date with year ≥ 1 (so
`"2024-1-5"` passes and `"2023-02-29"`, `"0000-01-01"` and `"24-01-15"`
fail); the format-failure message names the offending value, while a
non-string date fails with a generic message that does not mention it. -/
theorem c4_enmendado :
    ∀ campos : List (List Char × JVal),
      camposFaltantes campos = [] →
      revisarNombre campos = .ok () →
      revisarMonto campos = .ok () →
      ((∀ s, jget campos sFecha = .cadena s →
          (fechaValida s = true →
            validar_datos (JVal.objeto campos) =
              (do revisarTipo campos; pure (JVal.objeto campos))) ∧
          (fechaValida s = false →
            validar_datos (JVal.objeto campos) = .error (msgFechaFormato s) ∧
              esInfijo s (msgFechaFormato s) = true)) ∧
        (∀ v, jget campos sFecha = v → (∀ s, v ≠ .cadena s) →
          validar_datos (JVal.objeto campos) = .error msgFechaNoCadena) ∧
        fechaValida (("2024-1-5").data) = true ∧
        fechaValida (("2024-01-15").data) = true ∧
        fechaValida (("2023-02-29").data) = false ∧
        fechaValida (("0000-01-01").data) = false ∧
        fechaValida (("24-01-15").data) = false) := by
  intro campos h1 h2 h3
  refine ⟨?_, ?_, rfl, rfl, rfl, rfl, rfl⟩
  · intro s hj
    constructor
    · intro hval
      have hFecha : revisarFecha campos = .ok () := by
        unfold revisarFecha
        rw [hj]
        dsimp only
        simp [hval]
      rw [validar_objeto_sin_faltantes h1]
      unfold revisarCampos
      rw [h2, h3, hFecha]
      rfl
    · intro hval
      have hFecha : revisarFecha campos = .error (msgFechaFormato s) := by
        unfold revisarFecha
        rw [hj]
        dsimp only
        simp [hval]
      refine ⟨?_, by
        unfold msgFechaFormato
        exact esInfijo_cons comilla (esInfijo_append_izq _ (esInfijo_self s))⟩
      rw [validar_objeto_sin_faltantes h1]
      unfold revisarCampos
      rw [h2, h3, hFecha]
      rfl
  · intro v hj hnostr
    have hFecha : revisarFecha campos = .error msgFechaNoCadena := by
      unfold revisarFecha
      rw [hj]
      rcases v with _ | b | n | _ | s | xs | kvs
      · rfl
      · rfl
      · rfl
      · rfl
      · exact absurd rfl (hnostr s)
      · rfl
      · rfl
    rw [validar_objeto_sin_faltantes h1]
    unfold revisarCampos
    rw [h2, h3, hFecha]
    rfl

/-- A well-formed object except that `fecha` is an integer. -/
def camposFechaEntero : List (List Char × JVal) :=
  [(sNombre, .cadena (("Acme").data)), (sMonto, .nulo),
   (sFecha, .entero 20240115), (sTipo, .cadena sVenta)]

/-- Witness for C4 (amended): the short date `"2024-1-5"` passes the date
check and a non-string date fails with the generic message, both on
concrete objects. -/
theorem c4_enmendado_testigo :
    validar_datos (JVal.objeto camposFechaCorta) =
      (do revisarTipo camposFechaCorta; pure (JVal.objeto camposFechaCorta)) ∧
    validar_datos (JVal.objeto camposFechaEntero) = .error msgFechaNoCadena :=
  ⟨((c4_enmendado camposFechaCorta rfl rfl rfl).1 (("2024-1-5").data) rfl).1 rfl,
    (c4_enmendado camposFechaEntero rfl rfl rfl).2.1 (.entero 20240115) rfl
      (fun _ h => JVal.noConfusion h)⟩

/-- Attempt `n` fails: the completion call raised, or its reply fails
validation. -/
def fallaIntento (respuestas : Nat → Intento) (n : Nat) : Prop :=
  match respuestas n with
  | .errorApi _ => True
  | .respuesta txt => ∃ e, validar_json txt = .error e

/-- The error message the code observes for a failing attempt. -/
def errorObservado (i : Intento) : List Char :=
  match i with
  | .errorApi e => e
  | .respuesta txt =>
    match validar_json txt with
    | .error e => e
    | .ok _ => []

/-- The fatal `RuntimeError` message raised when the last attempt fails:
the API template for a transport error, the validation template for a
reply that failed validation, both carrying that attempt's error text. -/
def mensajeFatal (i : Intento) : List Char :=
  match i with
  | .errorApi e => msgFatalApi e
  | .respuesta _ => msgFatalValidacion (errorObservado i)

/-- C3: when attempts 1, 2 and 3 all fail (the adapter raises, or its
reply fails validation), `extraer_datos` issues completion requests for
exactly the attempts 1, 2 and 3 — a fresh request per attempt, never a
4th — and raises the fatal `RuntimeError` built from the 3rd (last)
attempt's error, whose message contains that error's text verbatim. -/
theorem c3_reintentos_agotados :
    ∀ respuestas : Nat → Intento,
      fallaIntento respuestas 1 →
      fallaIntento respuestas 2 →
      fallaIntento respuestas 3 →
      (extraer_datos respuestas).resultado = .error (mensajeFatal (respuestas 3)) ∧
      (extraer_datos respuestas).llamadas = [1, 2, 3] ∧
      esInfijo (errorObservado (respuestas 3)) (mensajeFatal (respuestas 3)) = true := by
  intro f h1 h2 h3
  have inf : esInfijo (errorObservado (f 3)) (mensajeFatal (f 3)) = true := by
    unfold mensajeFatal errorObservado
    rcases hf : f 3 with txt | e
    · dsimp only
      unfold msgFatalValidacion
      exact esInfijo_append_izq _ (esInfijo_self _)
    · dsimp only
      unfold msgFatalApi
      exact esInfijo_append_izq _ (esInfijo_self _)
  have principal :
      (extraer_datos f).resultado = .error (mensajeFatal (f 3)) ∧
      (extraer_datos f).llamadas = [1, 2, 3] := by
    unfold fallaIntento at h1 h2 h3
    show (extraerDesde f 1 MAX_REINTENTOS).resultado = _ ∧
      (extraerDesde f 1 MAX_REINTENTOS).llamadas = _
    have paso3 : extraerDesde f 3 1 = ⟨.error (mensajeFatal (f 3)), [3]⟩ := by
      unfold extraerDesde
      rcases hf : f 3 with txt | e
      · simp only [hf] at h3
        obtain ⟨e0, he0⟩ := h3
        simp only [he0]
        rw [if_pos (by decide : ((3 : Nat) == MAX_REINTENTOS) = true)]
        unfold mensajeFatal errorObservado
        simp only [he0]
      · dsimp only
        rw [if_pos (by decide : ((3 : Nat) == MAX_REINTENTOS) = true)]
        rfl
    have paso2 : extraerDesde f 2 2 = ⟨.error (mensajeFatal (f 3)), [2, 3]⟩ := by
      show extraerDesde f 2 (1 + 1) = _
      unfold extraerDesde
      rcases hf : f 2 with txt | e
      · simp only [hf] at h2
        obtain ⟨e0, he0⟩ := h2
        simp only [he0]
        rw [if_neg (by decide : ¬(((2 : Nat) == MAX_REINTENTOS) = true))]
        rw [show (2 + 1 : Nat) = 3 from rfl, paso3]
      · dsimp only
        rw [if_neg (by decide : ¬(((2 : Nat) == MAX_REINTENTOS) = true))]
        rw [show (2 + 1 : Nat) = 3 from rfl, paso3]
    show (extraerDesde f 1 (2 + 1)).resultado = _ ∧ (extraerDesde f 1 (2 + 1)).llamadas = _
    unfold extraerDesde
    rcases hf : f 1 with txt | e
    · simp only [hf] at h1
      obtain ⟨e0, he0⟩ := h1
      simp only [he0]
      rw [if_neg (by decide : ¬(((1 : Nat) == MAX_REINTENTOS) = true))]
      rw [show (1 + 1 : Nat) = 2 from rfl, paso2]
      exact ⟨rfl, rfl⟩
    · dsimp only
      rw [if_neg (by decide : ¬(((1 : Nat) == MAX_REINTENTOS) = true))]
      rw [show (1 + 1 : Nat) = 2 from rfl, paso2]
      exact ⟨rfl, rfl⟩
  exact ⟨principal.1, principal.2, inf⟩

/-- Witness for C3: an adapter that raises on every attempt yields three
calls and the fatal message built from the third attempt's error. -/
theorem c3_reintentos_agotados_testigo :
    (extraer_datos (fun _ => Intento.errorApi (("boom").data))).resultado =
      .error (mensajeFatal (Intento.errorApi (("boom").data))) ∧
    (extraer_datos (fun _ => Intento.errorApi (("boom").data))).llamadas = [1, 2, 3] :=
  ⟨(c3_reintentos_agotados (fun _ => .errorApi (("boom").data))
      True.intro True.intro True.intro).1,
    (c3_reintentos_agotados (fun _ => .errorApi (("boom").data))
      True.intro True.intro True.intro).2.1⟩

/-- C7: for every valid JSON text (one the decoder accepts in full),
wrapping it in triple-backtick fences yields an input on which
`validar_json` produces the same result as on the unfenced text: the
fence cleanup removes exactly the two delimiter lines — no line of a
valid JSON text can itself strip to a backtick — and recovers the inner
text, so `validar_json (fenced t) = validar_json t`. -/
theorem c7_vallas_invariante :
    ∀ t : List Char, (analizarJson t).isSome = true →
      validar_json (conVallas t) = validar_json t := by
  intro t h
  obtain ⟨v, hv⟩ := Option.isSome_iff_exists.mp h
  have hseg := analizar_seguro hv
  unfold validar_json
  rw [limpiar_conVallas t hseg, limpiar_sin_valla t hseg]

/-- The spec's well-formed complaint record as a JSON text. -/
def jsonQueja : List Char :=
  ("\x7b\"nombre_cliente\": \"X\", \"monto\": null, \"fecha\": \"2024-03-01\", \"tipo_solicitud\": \"Queja\"\x7d").data

/-- Witness for C7 at the spec's record text. -/
theorem c7_vallas_invariante_testigo :
    validar_json (conVallas jsonQueja) = validar_json jsonQueja :=
  c7_vallas_invariante jsonQueja (by rfl)

/-- C8: with a configured API key, a directory with no supported
candidate ends the run immediately: the warning is logged, no
per-document artifact and no summary artifact is written, and the empty
result list is returned without raising. -/
theorem c8_directorio_vacio :
    ∀ (apiKey : List Char) (dir : List Entrada),
      claveValida apiKey = true →
      (∀ e ∈ dir, esCandidato e = false) →
      procesar_archivos apiKey dir =
        .ok { resultados := [], errores := [], escritos := [],
              resumenEscrito := false, avisoVacio := true } := by
  intro k dir hk hdir
  unfold procesar_archivos
  have harch : archivosSoportados dir = [] := by
    unfold archivosSoportados
    rw [List.filter_eq_nil_iff.mpr (fun e he => by simp [hdir e he])]
    rfl
  simp only [hk, Bool.not_true, Bool.false_eq_true, if_false, harch,
    List.isEmpty_nil, if_true]
  rfl

/-- Witness for C8 at an empty directory. -/
theorem c8_directorio_vacio_testigo :
    procesar_archivos (("clave").data) [] =
      .ok { resultados := [], errores := [], escritos := [],
            resumenEscrito := false, avisoVacio := true } :=
  c8_directorio_vacio (("clave").data) [] (by decide)
    (fun e he => absurd he (List.not_mem_nil e))

/-- A candidate's lower-cased suffix always dispatches to a reader. -/
theorem despacho_soportado {e : Entrada} (h : esCandidato e = true) :
    ∃ f, formatoDe (minusculas (sufijo e.nombre)) = some f ∧
      leer_archivo e = e.lecturaFmt f := by
  unfold esCandidato at h
  obtain ⟨-, hext⟩ := Bool.and_eq_true_iff.mp h
  rw [List.any_eq_true] at hext
  obtain ⟨ext, hmem, hbeq⟩ := hext
  have heq : minusculas (sufijo e.nombre) = ext := eq_of_beq hbeq
  have despacho : ∀ fmt, formatoDe (minusculas (sufijo e.nombre)) = some fmt →
      leer_archivo e = e.lecturaFmt fmt := by
    intro fmt hf
    unfold leer_archivo
    simp only [hf]
  simp only [EXTENSIONES_SOPORTADAS, List.mem_cons, List.not_mem_nil, or_false] at hmem
  rcases hmem with h5 | h5 | h5 | h5 | h5 <;> subst h5
  · exact ⟨.txt, by rw [heq]; rfl, despacho _ (by rw [heq]; rfl)⟩
  · exact ⟨.pdf, by rw [heq]; rfl, despacho _ (by rw [heq]; rfl)⟩
  · exact ⟨.docx, by rw [heq]; rfl, despacho _ (by rw [heq]; rfl)⟩
  · exact ⟨.excel, by rw [heq]; rfl, despacho _ (by rw [heq]; rfl)⟩
  · exact ⟨.excel, by rw [heq]; rfl, despacho _ (by rw [heq]; rfl)⟩

/-- C9: every file the batch loop reaches passed the candidate filter, so
its lower-cased suffix is a supported extension and `leer_archivo`'s
dispatch resolves to a reader — the unsupported-format `ValueError`
branch of line 102 is unreachable from inside `procesar_archivos`. -/
theorem c9_formato_inalcanzable :
    ∀ (dir : List Entrada) (e : Entrada),
      e ∈ archivosSoportados dir →
      ∃ f, formatoDe (minusculas (sufijo e.nombre)) = some f ∧
        leer_archivo e = e.lecturaFmt f := by
  intro dir e he
  have he2 : e ∈ List.filter esCandidato dir :=
    (mem_ordenar (List.filter esCandidato dir) e).mp he
  exact despacho_soportado (List.mem_filter.mp he2).2

/-- A concrete plain-text entry. -/
def entradaTxt : Entrada :=
  ⟨("informe.txt").data, true, fun _ => .ok (("hola").data),
    fun _ => .errorApi (("x").data)⟩

/-- Witness for C9 at a one-file directory. -/
theorem c9_formato_inalcanzable_testigo :
    ∃ f, formatoDe (minusculas (sufijo entradaTxt.nombre)) = some f ∧
      leer_archivo entradaTxt = entradaTxt.lecturaFmt f :=
  c9_formato_inalcanzable [entradaTxt] entradaTxt (List.Mem.head _)

/-- C10: extension matching is case-insensitive at both gates — a file
whose suffix lower-cases into the supported set is selected as a batch
candidate by the directory filter, and `leer_archivo` dispatches it to
the reader of the corresponding format, because both compare the
lower-cased suffix. -/
theorem c10_extension_mayusculas :
    ∀ (dir : List Entrada) (e : Entrada),
      e ∈ dir → e.esArchivo = true →
      minusculas (sufijo e.nombre) ∈ EXTENSIONES_SOPORTADAS →
      e ∈ archivosSoportados dir ∧
      ∃ f, formatoDe (minusculas (sufijo e.nombre)) = some f ∧
        leer_archivo e = e.lecturaFmt f := by
  intro dir e he harch hext
  have hc : esCandidato e = true := by
    unfold esCandidato
    rw [harch]
    simp only [Bool.true_and]
    exact List.any_eq_true.mpr ⟨minusculas (sufijo e.nombre), hext, by simp⟩
  exact ⟨(mem_ordenar (List.filter esCandidato dir) e).mpr
      (List.mem_filter.mpr ⟨he, hc⟩),
    despacho_soportado hc⟩

/-- A concrete entry with an upper-case extension. -/
def entradaTxtMayus : Entrada :=
  ⟨("INFORME.TXT").data, true, fun _ => .ok (("hola").data),
    fun _ => .errorApi (("x").data)⟩

/-- Witness for C10: `INFORME.TXT` is selected and dispatched. -/
theorem c10_extension_mayusculas_testigo :
    entradaTxtMayus ∈ archivosSoportados [entradaTxtMayus] ∧
    ∃ f, formatoDe (minusculas (sufijo entradaTxtMayus.nombre)) = some f ∧
      leer_archivo entradaTxtMayus = entradaTxtMayus.lecturaFmt f :=
  c10_extension_mayusculas [entradaTxtMayus] entradaTxtMayus
    (List.Mem.head _) rfl (by decide)

/-- A `.txt` entry whose reader raises the undecodable-file `ValueError`
of `_leer_txt` (line 113). -/
def entradaIlegible : Entrada :=
  ⟨("a.txt").data, true,
    fun _ => .error (("No se pudo decodificar el archivo: datos_entrada/a.txt").data),
    fun _ => .errorApi (("API caída").data)⟩

/-- A readable `.txt` entry whose completion calls all fail. -/
def entradaApiCaida : Entrada :=
  ⟨("b.txt").data, true, fun _ => .ok (("hola").data),
    fun _ => .errorApi (("API caída").data)⟩

/-- C1 counterexample: the claim says every per-document error kind is
caught at the document boundary and recorded as a Failure while the batch
continues; but with an unreadable first file and a readable second one,
the reader's `ValueError` escapes the `except RuntimeError` handler of
line 321 and the whole run aborts with that exception — no Failure
outcome is recorded and the second document is never processed. -/
theorem c1_contraejemplo :
    procesar_archivos (("clave").data) [entradaIlegible, entradaApiCaida] =
      .error (.valueError
        (("No se pudo decodificar el archivo: datos_entrada/a.txt").data)) := rfl

/-- C1 (amended): the per-document `try` of `procesar_archivos` catches
only `RuntimeError`, so a retry-exhaustion failure from `extraer_datos`
is recorded as a Failure outcome and the batch continues with the next
document, while a Text-Extractor failure (unsupported format, unreadable
encoding, empty content — all raised as `ValueError`) is not caught at
that boundary and aborts the batch run. -/
theorem c1_enmendado :
    ∀ (e : Entrada) (resto : List Entrada) (estado : Lote),
      (∀ m, leer_archivo e = .error m →
        procesarLista (e :: resto) estado = .error (.valueError m)) ∧
      (∀ t m, leer_archivo e = .ok t →
        (extraer_datos e.respuestas).resultado = .error m →
        procesarLista (e :: resto) estado =
          procesarLista resto
            { estado with errores := estado.errores ++ [⟨e.nombre, m⟩] }) := by
  intro e resto estado
  constructor
  · intro m hm
    unfold procesarLista
    simp only [hm]
  · intro t m ht hm
    conv_lhs => unfold procesarLista
    simp only [ht, hm]

/-- Witness for C1 (amended): the reader failure aborts the one-file
batch; the retry-exhaustion failure is recorded and the loop proceeds. -/
theorem c1_enmendado_testigo :
    procesarLista [entradaIlegible] loteInicial =
      .error (.valueError
        (("No se pudo decodificar el archivo: datos_entrada/a.txt").data)) ∧
    procesarLista [entradaApiCaida] loteInicial =
      procesarLista []
        { loteInicial with
          errores := loteInicial.errores ++
            [⟨entradaApiCaida.nombre, msgFatalApi (("API caída").data)⟩] } :=
  ⟨(c1_enmendado entradaIlegible [] loteInicial).1 _ rfl,
    (c1_enmendado entradaApiCaida [] loteInicial).2 (("hola").data) _ rfl rfl⟩

end Procesador
